import Mathlib

/-!
Verification development for the eBay duplicate-listing detector
(Google Apps Script, src/Code.js). The JavaScript source is shallowly
embedded: strings are Lean `String`s (lists of `Char`s), spreadsheet rows
are lists of cell strings, the JS number results that only ever hold small
integer counts are `Nat`/`Int`, and the Jaccard ratio is `ℚ`. JS regex
replacement passes are embedded as character-list scanners that mimic the
global, non-overlapping, left-to-right semantics of
`String.prototype.replace(/… /g, …)`. The model of `\s` covers the ASCII
whitespace characters; `\w` is exactly ASCII `[A-Za-z0-9_]` as in JS;
`toLowerCase` is modelled on ASCII letters.
-/

namespace EbayTool

/-- Model of the JS regex class `\s` (restricted to its ASCII members). -/
def isWsChar (c : Char) : Bool :=
  c = ' ' || c = '\t' || c = '\n' || c = '\r' || c = '\x0b' || c = '\x0c'

/-- Model of the JS regex class `\w`, i.e. ASCII `[A-Za-z0-9_]`. -/
def isWordChar (c : Char) : Bool :=
  (('a' ≤ c && c ≤ 'z') || ('A' ≤ c && c ≤ 'Z') || ('0' ≤ c && c ≤ '9') || c = '_')

/-- The symbol class `[().\-_]` used by `normalizeTitle`. -/
def isSymChar (c : Char) : Bool :=
  c = '(' || c = ')' || c = '.' || c = '-' || c = '_'

/-- Characters kept by the final basic-normalization strip
`replace(/[^\w\s().\-_]/g, "")` (Code.js line 203). -/
def isKeptChar (c : Char) : Bool :=
  isWordChar c || isWsChar c || isSymChar c

/-- ASCII model of `String.prototype.toLowerCase` on a single character:
the 26 ASCII capitals map to their lower-case forms, everything else is
unchanged. -/
def jsToLower (c : Char) : Char :=
  match c with
  | 'A' => 'a' | 'B' => 'b' | 'C' => 'c' | 'D' => 'd' | 'E' => 'e'
  | 'F' => 'f' | 'G' => 'g' | 'H' => 'h' | 'I' => 'i' | 'J' => 'j'
  | 'K' => 'k' | 'L' => 'l' | 'M' => 'm' | 'N' => 'n' | 'O' => 'o'
  | 'P' => 'p' | 'Q' => 'q' | 'R' => 'r' | 'S' => 's' | 'T' => 't'
  | 'U' => 'u' | 'V' => 'v' | 'W' => 'w' | 'X' => 'x' | 'Y' => 'y'
  | 'Z' => 'z'
  | _ => c

/-- Remove leading whitespace (one side of `String.prototype.trim`). -/
def dropWs (l : List Char) : List Char := l.dropWhile isWsChar

/-- Model of `String.prototype.trim` on a character list. -/
def jsTrimL (l : List Char) : List Char :=
  (dropWs ((dropWs l).reverse)).reverse

/-- Model of `String.prototype.trim`. -/
def jsTrim (s : String) : String := String.mk (jsTrimL s.data)

/-- Cell access `row[i]` with the JS `undefined`-to-falsy convention:
out-of-range access yields the empty string. -/
def getCell (row : List String) (i : Nat) : String := row.getD i ""

/-- Dynamic batch size, `CONFIG.calculateOptimalBatchSize` (Code.js 39-45). -/
def calculateOptimalBatchSize (dataSize : Nat) : Nat :=
  if dataSize ≤ 1000 then 500
  else if dataSize ≤ 5000 then 1000
  else if dataSize ≤ 20000 then 2000
  else if dataSize ≤ 40000 then 3000
  else 4000

/-- Split a character list at every comma, as `line.split(",")` does:
the empty list yields one empty field, and every comma ends a field. -/
def splitComma : List Char → List (List Char)
  | [] => [[]]
  | ',' :: rest => [] :: splitComma rest
  | c :: rest =>
    match splitComma rest with
    | g :: gs => (c :: g) :: gs
    | [] => [[c]]

/-- Comma-split with every cell whitespace-trimmed; the reference
behaviour claimed for the per-line CSV parsers on quote-free lines. -/
def splitCommaTrim (s : String) : List String :=
  (splitComma s.data).map (fun g => String.mk (jsTrimL g))

/-- State machine of `parseCSVLine` (Code.js 914-950): `""` inside quotes
is an escaped quote, an unquoted comma ends the field, every field is
trimmed when pushed. -/
def parseCSVGo : List Char → Bool → List Char → List (List Char)
  | [], _, cur => [jsTrimL cur]
  | '"' :: '"' :: rest, true, cur => parseCSVGo rest true (cur ++ ['"'])
  | '"' :: rest, inQ, cur => parseCSVGo rest (!inQ) cur
  | ',' :: rest, false, cur => jsTrimL cur :: parseCSVGo rest false []
  | c :: rest, inQ, cur => parseCSVGo rest inQ (cur ++ [c])

/-- Top-level `parseCSVLine` (Code.js 914-950). -/
def parseCSVLine (s : String) : List String :=
  (parseCSVGo s.data false []).map String.mk

/-- State machine of `CSVHandler.parseLine` (Code.js 339-362). Unlike
`parseCSVLine`, a doubled quote is treated as an escaped quote even
outside a quoted region (the code does not test `inQuotes` there). -/
def parseLineGo : List Char → Bool → List Char → List (List Char)
  | [], _, cur => [jsTrimL cur]
  | '"' :: '"' :: rest, inQ, cur => parseLineGo rest inQ (cur ++ ['"'])
  | '"' :: rest, inQ, cur => parseLineGo rest (!inQ) cur
  | ',' :: rest, false, cur => jsTrimL cur :: parseLineGo rest false []
  | c :: rest, inQ, cur => parseLineGo rest inQ (cur ++ [c])

/-- Top-level `CSVHandler.parseLine` (Code.js 321-373): empty or
whitespace-only lines return an empty array; quote-free lines take the
fast comma-split path with each cell trimmed (`cell ? cell.trim() : ""`
equals trimming for every string); otherwise the state machine runs. -/
def parseLine (s : String) : List String :=
  if jsTrim s = "" then []
  else if s.data.contains '"' then (parseLineGo s.data false []).map String.mk
  else (splitComma s.data).map (fun g => String.mk (jsTrimL g))

/-- Pass 1 of `normalizeTitle` in both modes: `replace(/\s+/g, " ")` —
every maximal whitespace run becomes a single space. -/
def collapseWsF : Nat → List Char → List Char
  | _, [] => []
  | 0, l => l
  | fuel + 1, c :: cs =>
    if isWsChar c then ' ' :: collapseWsF fuel (cs.dropWhile isWsChar)
    else c :: collapseWsF fuel cs

/-- The whitespace-collapse pass, with the scan-step fuel instantiated at
the input length, which every recursive call respects. -/
def collapseWs (l : List Char) : List Char := collapseWsF l.length l

/-- Basic-mode pass `replace(/\(\s*\)/g, "")` (Code.js 192): drop every
empty parenthesis pair, scanning left to right without overlap. -/
def remEmptyParensF : Nat → List Char → List Char
  | _, [] => []
  | 0, l => l
  | fuel + 1, c :: cs =>
    if c = '(' then
      match cs.dropWhile isWsChar with
      | ')' :: rest => remEmptyParensF fuel rest
      | _ => '(' :: remEmptyParensF fuel cs
    else c :: remEmptyParensF fuel cs

/-- The empty-parenthesis pass at full fuel. -/
def remEmptyParens (l : List Char) : List Char := remEmptyParensF l.length l

/-- Basic-mode pass `replace(/\[\s*\]/g, "")` (Code.js 193). -/
def remEmptyBracketsF : Nat → List Char → List Char
  | _, [] => []
  | 0, l => l
  | fuel + 1, c :: cs =>
    if c = '[' then
      match cs.dropWhile isWsChar with
      | ']' :: rest => remEmptyBracketsF fuel rest
      | _ => '[' :: remEmptyBracketsF fuel cs
    else c :: remEmptyBracketsF fuel cs

/-- The empty-bracket pass at full fuel. -/
def remEmptyBrackets (l : List Char) : List Char := remEmptyBracketsF l.length l

/-- Basic-mode pass `replace(/\s+\.\s+/g, " ")` (Code.js 194): a lone dot
surrounded by whitespace collapses, with its whitespace, to one space. -/
def loneDotF : Nat → List Char → List Char
  | _, [] => []
  | 0, l => l
  | fuel + 1, c :: cs =>
    if isWsChar c then
      match cs.dropWhile isWsChar with
      | '.' :: d :: rest2 =>
        if isWsChar d then ' ' :: loneDotF fuel ((d :: rest2).dropWhile isWsChar)
        else c :: (cs.takeWhile isWsChar ++ loneDotF fuel (cs.dropWhile isWsChar))
      | _ => c :: (cs.takeWhile isWsChar ++ loneDotF fuel (cs.dropWhile isWsChar))
    else c :: loneDotF fuel cs

/-- The lone-dot pass at full fuel. -/
def loneDot (l : List Char) : List Char := loneDotF l.length l

/-- Basic-mode pass `replace(/\s*([().\-_])\s*/g, "$1")` (Code.js 197):
every symbol keeps itself and swallows the whitespace around it. -/
def symbolSpaceF : Nat → List Char → List Char
  | _, [] => []
  | 0, l => l
  | fuel + 1, c :: cs =>
    if isWsChar c then
      match cs.dropWhile isWsChar with
      | d :: rest =>
        if isSymChar d then d :: symbolSpaceF fuel (rest.dropWhile isWsChar)
        else c :: (cs.takeWhile isWsChar ++ symbolSpaceF fuel (cs.dropWhile isWsChar))
      | [] => c :: cs.takeWhile isWsChar
    else if isSymChar c then c :: symbolSpaceF fuel (cs.dropWhile isWsChar)
    else c :: symbolSpaceF fuel cs

/-- The symbol-whitespace pass at full fuel. -/
def symbolSpace (l : List Char) : List Char := symbolSpaceF l.length l

/-- Final basic-mode strip `replace(/[^\w\s().\-_]/g, "")` (Code.js 203). -/
def stripNonKept (l : List Char) : List Char := l.filter isKeptChar

/-- The whole basic-mode pipeline of `TextAnalyzer.normalizeTitle`
(Code.js 185-204) on a lower-cased character list, in source order:
collapse whitespace; drop empty `()` and `[]`; collapse lone dots; remove
whitespace around `( ) . - _`; collapse and trim; strip foreign
characters. -/
def basicPipeline (l : List Char) : List Char :=
  stripNonKept (jsTrimL (collapseWs (symbolSpace (loneDot
    (remEmptyBrackets (remEmptyParens (collapseWs l)))))))

/-- Basic-mode `TextAnalyzer.normalizeTitle(title, false)` (Code.js
114-207): falsy input gives the empty string, otherwise the input is
lower-cased and run through the basic pipeline. -/
def normalizeTitleBasic (title : String) : String :=
  if title = "" then ""
  else String.mk (basicPipeline (title.data.map jsToLower))

/-- A compiled character of one of the abbreviation regexes built by
`new RegExp("\\b" + abbr + "\\b", "g")` (Code.js 147). The dots inside
abbreviations such as `in.` are not escaped, so they compile to the regex
any-character class. -/
inductive PatC where
  | lit (c : Char)
  | anyc
  deriving Repr, DecidableEq

/-- Compile an abbreviation key into its regex body. -/
def patOfString (s : String) : List PatC :=
  s.data.map (fun c => if c = '.' then PatC.anyc else PatC.lit c)

/-- Whether an optional character is a `\w` character; string edges count
as non-word, as in the JS `\b` assertion. -/
def wordAt : Option Char → Bool
  | some c => isWordChar c
  | none => false

/-- The JS `\b` assertion between two adjacent positions. -/
def wbBetween (a b : Option Char) : Bool := wordAt a != wordAt b

/-- Match a regex body against the head of the input, returning the last
consumed character together with the rest of the input. -/
def patMatchLast (last : Char) : List PatC → List Char → Option (Char × List Char)
  | [], rest => some (last, rest)
  | PatC.lit d :: ps, c :: cs => if c = d then patMatchLast c ps cs else none
  | PatC.anyc :: ps, c :: cs => patMatchLast c ps cs
  | _ :: _, [] => none

/-- Fueled global word-bounded replacement: the scanner of
`normalized.replace(new RegExp("\\b" + abbr + "\\b", "g"), full)`.
`prev` is the character before the scan position (for the leading `\b`);
after a match the scan resumes after the matched text, which is never
rescanned. The fuel is always instantiated with the input length, which
bounds the number of scan steps. -/
def wordReplaceF (q0 : PatC) (qs : List PatC) (rep : List Char) :
    Nat → Option Char → List Char → List Char
  | 0, _, l => l
  | _ + 1, _, [] => []
  | fuel + 1, prev, c :: cs =>
    if wbBetween prev (some c) then
      match patMatchLast c (q0 :: qs) (c :: cs) with
      | some (last, rest) =>
        if wbBetween (some last) rest.head? then
          rep ++ wordReplaceF q0 qs rep fuel (some last) rest
        else c :: wordReplaceF q0 qs rep fuel (some c) cs
      | none => c :: wordReplaceF q0 qs rep fuel (some c) cs
    else c :: wordReplaceF q0 qs rep fuel (some c) cs

/-- Global word-bounded replacement of one abbreviation pattern. -/
def wordReplace (pat : List PatC) (rep : List Char) (l : List Char) : List Char :=
  match pat with
  | [] => l
  | q0 :: qs => wordReplaceF q0 qs rep l.length none l

/-- The abbreviation table of advanced normalization (Code.js 131-144),
in object-literal insertion order, which is the order `Object.entries`
iterates. -/
def replacements : List (String × String) :=
  [("in.", "inch"), ("inches", "inch"), ("ft.", "foot"), ("feet", "foot"),
   ("lbs", "pound"), ("lb.", "pound"), ("pounds", "pound"), ("oz.", "ounce"),
   ("ounces", "ounce"), ("pcs", "piece"), ("pc.", "piece"), ("pieces", "piece")]

/-- Apply the twelve abbreviation replacements in order (Code.js 146-148). -/
def applyReplacements (l : List Char) : List Char :=
  replacements.foldl (fun acc pr => wordReplace (patOfString pr.1) pr.2.data acc) l

/-- Split on the literal single-space separator, as
`normalized.split(" ")` does: the empty list yields one empty word. -/
def splitSpace : List Char → List (List Char)
  | [] => [[]]
  | ' ' :: rest => [] :: splitSpace rest
  | c :: rest =>
    match splitSpace rest with
    | g :: gs => (c :: g) :: gs
    | [] => [[c]]

/-- The stop-word list of advanced normalization (Code.js 154). -/
def stopWords : List String :=
  ["a", "an", "the", "and", "or", "but", "is", "are", "on", "at", "to",
   "for", "with", "by", "in", "of"]

/-- Lexicographic comparison by code point: the default JS
`Array.prototype.sort()` string order (restricted to the basic plane). -/
def strLtL : List Char → List Char → Bool
  | [], [] => false
  | [], _ :: _ => true
  | _ :: _, [] => false
  | a :: as, b :: bs => if a = b then strLtL as bs else decide (a < b)

/-- Insert a word into an ascending word list. -/
def sortInsertStr (w : List Char) : List (List Char) → List (List Char)
  | [] => [w]
  | v :: vs => if strLtL w v then w :: v :: vs else v :: sortInsertStr w vs

/-- The default string sort `filteredWords.sort()` (Code.js 162). -/
def sortStrings (l : List (List Char)) : List (List Char) :=
  l.foldl (fun acc w => sortInsertStr w acc) []

/-- Remove later duplicates, keeping first occurrences: the effect of the
`index === self.indexOf(word)` test in the important-word filter. -/
def dedupFirstF {α : Type} [DecidableEq α] : Nat → List α → List α
  | _, [] => []
  | 0, l => l
  | fuel + 1, x :: xs => x :: dedupFirstF fuel (xs.filter (fun y => y ≠ x))

/-- First-occurrence deduplication at full fuel. -/
def dedupFirst {α : Type} [DecidableEq α] (l : List α) : List α :=
  dedupFirstF l.length l

/-- The sorted filtered word list of advanced normalization (Code.js
121-162): collapse whitespace, strip `( ) . - _` entirely, expand
abbreviations, split on spaces, drop stop words and words of length at
most 2, and sort. -/
def advSortedWords (l : List Char) : List (List Char) :=
  let l2 := (collapseWs l).filter (fun c => !isSymChar c)
  let words := splitSpace (applyReplacements l2)
  let filtered := words.filter
    (fun w => decide (2 < w.length) && !(stopWords.contains (String.mk w)))
  sortStrings filtered

/-- Advanced-mode `TextAnalyzer.normalizeTitle(title, true)` (Code.js
114-184): from the sorted filtered words, keep the first occurrence of
every word that repeats or is longer than 5 characters; if fewer than 3
words survive, fall back to the whole filtered list; join with spaces. -/
def normalizeTitleAdv (title : String) : String :=
  if title = "" then ""
  else
    let sortedF := advSortedWords (title.data.map jsToLower)
    let important := (dedupFirst sortedF).filter
      (fun w => decide (1 < sortedF.count w) || decide (5 < w.length))
    if important.length < 3 then String.mk (List.intercalate [' '] sortedF)
    else String.mk (List.intercalate [' '] important)

/-- `TextAnalyzer.normalizeTitle` with its mode flag (Code.js 114-207). -/
def normalizeTitle (title : String) (useAdvanced : Bool) : String :=
  if useAdvanced then normalizeTitleAdv title else normalizeTitleBasic title

/-- `TextAnalyzer.calculateSimilarity` (Code.js 209-228): normalize both
titles in advanced mode, return 0 if either is empty, otherwise the
Jaccard coefficient of the word sets. The JS number is modelled in `ℚ`. -/
def calculateSimilarity (title1 title2 : String) : ℚ :=
  let n1 := normalizeTitleAdv title1
  let n2 := normalizeTitleAdv title2
  if n1 = "" ∨ n2 = "" then 0
  else
    let w1 := (splitSpace n1.data).map String.mk
    let w2 := (splitSpace n2.data).map String.mk
    ((w1.toFinset ∩ w2.toFinset).card : ℚ) / ((w1.toFinset ∪ w2.toFinset).card : ℚ)

/-- One selected export row `["End", itemId, "OtherListingError"]` and the
selection loop of `generateExportCsv` (Code.js 2989-3002): the code walks
the 処理 (action) column and the ItemID column in parallel and keeps the
rows with action 終了 and a truthy (non-empty) itemId. -/
def exportSelect : List String → List String → List (List String)
  | a :: as, i :: is =>
    (if a = "終了" ∧ i ≠ "" then [["End", i, "OtherListingError"]] else [])
      ++ exportSelect as is
  | _, _ => []

/-- Result object of `generateExportCsv`, restricted to the fields the
claims are about. -/
structure ExportResult where
  success : Bool
  message : String
  itemCount : Nat
  data : List (List String)
  deriving Repr, DecidableEq

/-- Core of `generateExportCsv` (Code.js 2975-3045) on the decorated
duplicate-list table: extract the action and itemId columns, select the
終了 rows with non-empty itemId, and return the zero-case success result
when nothing matched. (Sheet formatting and file naming are host glue and
are not modelled.) -/
def generateExportCsvCore (rows : List (List String)) (actionIdx itemIdIdx : Nat) :
    ExportResult :=
  if exportSelect (rows.map (fun r => getCell r actionIdx))
      (rows.map (fun r => getCell r itemIdIdx)) = [] then
    { success := true
      message := "終了対象のアイテム: 0件。\"終了\"指定されたアイテムはありませんでした。"
      itemCount := 0
      data := [] }
  else
    { success := true
      message := "エクスポートしました。"
      itemCount := (exportSelect (rows.map (fun r => getCell r actionIdx))
        (rows.map (fun r => getCell r itemIdIdx))).length
      data := exportSelect (rows.map (fun r => getCell r actionIdx))
        (rows.map (fun r => getCell r itemIdIdx)) }

/-- An item of a title group, as pushed by `groupByTitle`
(Code.js 1262-1268). Cell values are modelled as strings; a missing
`startDate` cell (including the `row[-1]` read when no date column was
resolved) is the empty string, which is falsy exactly as `undefined` is
in the date comparator. -/
structure Item where
  itemId : String
  title : String
  originalTitle : String
  startDate : String
  allData : List String
  deriving Repr, DecidableEq

/-- Gregorian leap-year rule, as the host date parser validates it. -/
def isLeapYear (y : Nat) : Bool :=
  (y % 4 = 0 && decide (y % 100 ≠ 0)) || y % 400 = 0

/-- Days in a month of the proleptic Gregorian calendar. -/
def daysInIsoMonth (y m : Nat) : Nat :=
  if m = 2 then (if isLeapYear y then 29 else 28)
  else if m = 4 ∨ m = 6 ∨ m = 9 ∨ m = 11 then 30
  else 31

/-- Model of the host `new Date(string)` parse, restricted to ISO
`YYYY-MM-DD` date strings; the host validates month 1-12 and the day
against the month including leap years (`new Date("2024-02-30")` is an
Invalid Date), and this model does the same. Every other string —
including the further formats the host parses, such as `2024/03/01` —
is encoded as `none` (Invalid Date, `NaN`); the amended claim is
therefore scoped to ISO-dated groups. The encoding
`y * 10000 + m * 100 + d` is strictly monotone in calendar order, which
is all the sort comparator observes. -/
def parseDateOpt (s : String) : Option Int :=
  match s.data with
  | [y1, y2, y3, y4, h1, m1, m2, h2, d1, d2] =>
    if h1 = '-' ∧ h2 = '-' ∧ (([y1, y2, y3, y4, m1, m2, d1, d2]).all
        (fun c => '0' ≤ c && c ≤ '9')) then
      let dv : Char → Nat := fun c => c.toNat - '0'.toNat
      let yy := ((dv y1 * 10 + dv y2) * 10 + dv y3) * 10 + dv y4
      let mm := dv m1 * 10 + dv m2
      let dd := dv d1 * 10 + dv d2
      if 1 ≤ mm ∧ mm ≤ 12 ∧ 1 ≤ dd ∧ dd ≤ daysInIsoMonth yy mm then
        some ((yy * 10000 + mm * 100 + dd : Nat) : Int)
      else none
    else none
  | _ => none

/-- The rank a member gets from the group comparator: `none` when the
`startDate` is missing (falsy) or does not parse (`NaN`). -/
def rankOf (m : Item) : Option Int :=
  if m.startDate = "" then none else parseDateOpt m.startDate

/-- The comparator of the intra-group sort (Code.js 2026-2031):
`(a, b) => { if (!a.startDate || !b.startDate) return 0; return
new Date(b.startDate) - new Date(a.startDate) }`. A `NaN` comparator
result is treated as 0 by the ES `SortCompare` operation, so both the
missing-date and the unparseable-date cases return 0 here. -/
def memberCmp (a b : Item) : Int :=
  match rankOf a, rankOf b with
  | some x, some y => y - x
  | _, _ => 0

/-- Stable insert used to model the ES2019-stable `Array.prototype.sort`:
the new element is placed before the first already-placed element it
strictly precedes, hence after every element that compares equal. -/
def jsSortInsert {α : Type} (cmp : α → α → Int) (x : α) : List α → List α
  | [] => [x]
  | y :: ys => if cmp x y < 0 then x :: y :: ys else y :: jsSortInsert cmp x ys

/-- Model of the stable `Array.prototype.sort(cmp)`: elements are
inserted in original order, each after all its equal-comparing
predecessors. -/
def jsStableSort {α : Type} (cmp : α → α → Int) (l : List α) : List α :=
  l.foldl (fun acc x => jsSortInsert cmp x acc) []

/-- The idealised stable sort of the in-place member sort
`group.sort(...)` of `createDuplicateListSheet` (Code.js 2026-2031).
The comparator returns 0 against every member with a missing or
unparseable date and is therefore not a consistent comparison function,
so `Array.prototype.sort`'s order is implementation-defined on such
groups and this model is faithful only where the comparator is
consistent — see `v8SortGroupMembers` for the engine's algorithm and
the equivalence proved on all-ranked groups. -/
def sortGroupMembers (g : List Item) : List Item :=
  jsStableSort memberCmp g

/-- The binary search of V8's `BinaryInsertionSort` (array-sort.tq):
`left`/`right` bounds, `mid = left + (right - left) / 2`, move `right`
down when `cmp(pivot, a[mid]) < 0` and `left` past `mid` otherwise, so
the pivot lands after every equal-comparing element. The step count is
fuel; `right - left` shrinks every step, so fuel `right - left` (or any
larger value such as the array length) is exact. -/
def v8BinSearchF {α : Type} (cmp : α → α → Int) (pivot : α) (acc : List α) :
    Nat → Nat → Nat → Nat
  | 0, left, _ => left
  | fuel + 1, left, right =>
    if left < right then
      let mid := left + (right - left) / 2
      if cmp pivot (acc.getD mid pivot) < 0 then
        v8BinSearchF cmp pivot acc fuel left mid
      else v8BinSearchF cmp pivot acc fuel (mid + 1) right
    else left

/-- One insertion step of V8's `BinaryInsertionSort`: place the pivot at
the position its binary search finds. -/
def v8BinInsert {α : Type} (cmp : α → α → Int) (acc : List α) (x : α) :
    List α :=
  acc.take (v8BinSearchF cmp x acc acc.length 0 acc.length) ++
    x :: acc.drop (v8BinSearchF cmp x acc acc.length 0 acc.length)

/-- The ascending-run scan of V8's `CountAndMakeRun`: keep taking
elements while `cmp(current, previous) >= 0`; return the run tail and
the remaining elements. -/
def v8AscRun {α : Type} (cmp : α → α → Int) : α → List α → List α × List α
  | _, [] => ([], [])
  | prev, z :: zs =>
    if cmp z prev < 0 then ([], z :: zs)
    else
      let p := v8AscRun cmp z zs
      (z :: p.1, p.2)

/-- The strictly-descending-run scan of V8's `CountAndMakeRun`: keep
taking elements while `cmp(current, previous) < 0`. -/
def v8DescRun {α : Type} (cmp : α → α → Int) : α → List α → List α × List α
  | _, [] => ([], [])
  | prev, z :: zs =>
    if cmp z prev < 0 then
      let p := v8DescRun cmp z zs
      (z :: p.1, p.2)
    else ([], z :: zs)

/-- V8's `CountAndMakeRun`: the first two elements decide the direction
(`cmp(a[1], a[0]) < 0` means descending); a strictly descending run is
reversed in place (strictness makes the reversal stable). Returns the
prepared run and the unprocessed rest. -/
def v8MakeRun {α : Type} (cmp : α → α → Int) : List α → List α × List α
  | [] => ([], [])
  | [x] => ([x], [])
  | x :: y :: rest =>
    if cmp y x < 0 then
      let p := v8DescRun cmp y rest
      ((x :: y :: p.1).reverse, p.2)
    else
      let p := v8AscRun cmp y rest
      (x :: y :: p.1, p.2)

/-- V8's `Array.prototype.sort` on arrays shorter than 64 elements, the
path Google Apps Script's engine takes for these groups: TimSort's
`ComputeMinRunLength` returns the full length below 64, so the whole
array is one `CountAndMakeRun` followed by `BinaryInsertionSort` of the
remaining elements and no merge ever happens. (Longer arrays add run
merging, which changes nothing when the comparator is consistent.) -/
def v8SortSmall {α : Type} (cmp : α → α → Int) (l : List α) : List α :=
  (v8MakeRun cmp l).2.foldl (v8BinInsert cmp) (v8MakeRun cmp l).1

/-- The member sort `group.sort(...)` (Code.js 2026-2031) as the engine
actually executes it on groups of fewer than 64 members. -/
def v8SortGroupMembers (g : List Item) : List Item :=
  v8SortSmall memberCmp g

/-- One sheet row of the duplicate list (Code.js 2035-2045):
`new Array(len).fill("")` with group id, position label and decision tag
written at indices 0-2 and the original row from index 3 on. -/
def padRow (len : Nat) (gid pos tag : String) (data : List String) : List String :=
  [gid, pos, tag] ++ (data ++ List.replicate (len - (3 + data.length)) "")

/-- The rows one duplicate group contributes to the duplicate-list sheet
(Code.js 2024-2048): members are sorted by the date comparator, then the
member at index 0 is tagged 残す (Keep) and all others 終了 (End). -/
def groupRows (len gi : Nat) (g : List Item) : List (List String) :=
  (sortGroupMembers g).mapIdx (fun i it =>
    padRow len ("Group " ++ toString (gi + 1))
      (toString g.length ++ "件中" ++ toString (i + 1) ++ "件目")
      (if i = 0 then "残す" else "終了") it.allData)

/-- The full data block written by `createDuplicateListSheet`
(Code.js 2021-2054), including the blank separator row between groups. -/
def createDuplicateRows (len : Nat) (groups : List (List Item)) : List (List String) :=
  (groups.mapIdx (fun gi g =>
    groupRows len gi g ++ if gi + 1 < groups.length then [List.replicate len ""] else [])).flatten

/-- An assoc list modelling a JS plain object used as a map: entries in
property-creation order, keys unique. -/
abbrev JSMap (α : Type) : Type := List (String × α)

/-- Upsert into a JS-object map: an existing key keeps its place and has
the new value combined in; a new key is appended. -/
def jsoInsertWith {α : Type} (comb : α → α → α) (k : String) (v : α)
    (m : JSMap α) : JSMap α :=
  if (m.map (fun e => e.1)).contains k then
    m.map (fun e => if e.1 = k then (e.1, comb e.2 v) else e)
  else m ++ [(k, v)]

/-- Whether a string is a canonical array-index property key (ES:
the decimal form of an integer below 2^32 - 1 with no leading zero). -/
def isArrayIndexStr (s : String) : Bool :=
  match s.data with
  | [] => false
  | c :: cs =>
    ((c :: cs).all (fun d => '0' ≤ d && d ≤ '9')) &&
      (cs = [] || c ≠ '0') &&
      ((c :: cs).foldl (fun n d => n * 10 + (d.toNat - '0'.toNat)) 0 < 4294967295)

/-- Numeric value of a digit string, for ordering array-index keys. -/
def keyNatVal (s : String) : Nat :=
  s.data.foldl (fun n d => n * 10 + (d.toNat - '0'.toNat)) 0

/-- The entries of a JS object in own-property enumeration order, the
order `Object.values` and `for...in` use (ES `OrdinaryOwnPropertyKeys`):
array-index keys first in ascending numeric order, then the remaining
string keys in creation order. -/
def jsoEnumOrder {α : Type} (m : JSMap α) : JSMap α :=
  jsStableSort (fun a b => (keyNatVal a.1 : Int) - (keyNatVal b.1 : Int))
      (m.filter (fun e => isArrayIndexStr e.1)) ++
    m.filter (fun e => !isArrayIndexStr e.1)

/-- The per-row entry of `groupByTitle` (Code.js 1252-1269): the
basic-normalized title as key and the pushed item, or `none` when the
normalized title or the trimmed itemId is empty (the row is skipped). -/
def mkItemRow (tIdx iIdx : Nat) (dIdx : Option Nat) (row : List String) :
    Option (String × Item) :=
  let title := normalizeTitleBasic (getCell row tIdx)
  let itemId := jsTrim (getCell row iIdx)
  if title ≠ "" ∧ itemId ≠ "" then
    some (title,
      { itemId := itemId, title := title, originalTitle := getCell row tIdx,
        startDate := (match dIdx with | some j => getCell row j | none => ""),
        allData := row })
  else none

/-- `groupByTitle` (Code.js 1249-1273): accumulate items into a JS object
keyed by normalized title, skipping rows without usable title or id. -/
def groupByTitle (tIdx iIdx : Nat) (dIdx : Option Nat)
    (data : List (List String)) : JSMap (List Item) :=
  data.foldl (fun m row =>
    match mkItemRow tIdx iIdx dIdx row with
    | some (k, it) => jsoInsertWith (· ++ ·) k [it] m
    | none => m) []

/-- The group comparator `(a, b) => b.length - a.length` (Code.js 1314),
on entries that carry their key along. -/
def groupLenCmp (a b : String × List Item) : Int :=
  (b.2.length : Int) - (a.2.length : Int)

/-- The duplicate-group list of `detectDuplicatesStandard`
(Code.js 1312-1314): object values, keep groups with more than one
member, stable-sort by member count descending. -/
def dupGroupsOf (tIdx iIdx : Nat) (dIdx : Option Nat)
    (data : List (List String)) : JSMap (List Item) :=
  jsStableSort groupLenCmp
    ((jsoEnumOrder (groupByTitle tIdx iIdx dIdx data)).filter
      (fun e => decide (1 < e.2.length)))

/-- Header cell preparation of `findColumnIndices` (Code.js 1205):
`String(h).toLowerCase().replace(/\s+/g, "")`. -/
def normalizeHeader (h : String) : List Char :=
  (h.data.map jsToLower).filter (fun c => !isWsChar c)

/-- Whether the second list starts with the first. -/
def listStarts : List Char → List Char → Bool
  | [], _ => true
  | _ :: _, [] => false
  | p :: ps, c :: cs => p = c && listStarts ps cs

/-- Substring containment, the JS `String.prototype.includes`. -/
def listHasSub (pat : List Char) : List Char → Bool
  | [] => listStarts pat []
  | c :: cs => listStarts pat (c :: cs) || listHasSub pat cs

/-- The title column resolved by `findColumnIndices` (Code.js 1211-1218,
default at 1239): first header containing `title` or `name`, else column
1 when the header has more than one cell, else unresolved. -/
def titleIdxOf (headers : List String) : Option Nat :=
  match headers.findIdx? (fun h =>
      listHasSub ("title").data (normalizeHeader h) ||
      listHasSub ("name").data (normalizeHeader h)) with
  | some i => some i
  | none => if 1 < headers.length then some 1 else none

/-- The itemId column resolved by `findColumnIndices` (Code.js
1220-1227, default at 1240). -/
def itemIdxOf (headers : List String) : Option Nat :=
  match headers.findIdx? (fun h =>
      listHasSub ("item").data (normalizeHeader h) ||
      listHasSub ("id").data (normalizeHeader h) ||
      listHasSub ("number").data (normalizeHeader h)) with
  | some i => some i
  | none => if 0 < headers.length then some 0 else none

/-- The startDate column resolved by `findColumnIndices` (Code.js
1229-1236, default at 1241). -/
def dateIdxOf (headers : List String) : Option Nat :=
  match headers.findIdx? (fun h =>
      listHasSub ("date").data (normalizeHeader h) ||
      listHasSub ("start").data (normalizeHeader h)) with
  | some i => some i
  | none => if 2 < headers.length then some 2 else none

/-- Outcome of `detectDuplicatesStandard`: either the required-columns
failure object `{success: false, message}` or the success object carrying
the duplicate groups (Code.js 1299-1327). -/
inductive DetectResult where
  | failure (message : String)
  | ok (dupGroups : JSMap (List Item))
  deriving Repr

/-- The `success` flag of a detection result object. -/
def DetectResult.successFlag : DetectResult → Bool
  | .failure _ => false
  | .ok _ => true

/-- The `duplicateGroups` count of a detection result (0 on failure,
where the JS object has no such field). -/
def DetectResult.dupGroupCount : DetectResult → Nat
  | .failure _ => 0
  | .ok gs => gs.length

/-- The `duplicateItems` count, `getTotalDuplicates` (Code.js 2005-2007). -/
def DetectResult.dupItemCount : DetectResult → Nat
  | .failure _ => 0
  | .ok gs => (gs.map (fun e => e.2.length)).sum

/-- Core of `detectDuplicatesStandard` (Code.js 1291-1328) on a header
row and data rows: resolve columns, fail when title or itemId is
unresolvable, otherwise group and keep the duplicate groups. -/
def detectDuplicatesStandardCore (headers : List String)
    (data : List (List String)) : DetectResult :=
  match titleIdxOf headers, itemIdxOf headers with
  | some tIdx, some iIdx =>
    DetectResult.ok (dupGroupsOf tIdx iIdx (dateIdxOf headers) data)
  | _, _ => DetectResult.failure "必須カラム(タイトル、ID)が見つかりません。"

/-- `ChunkedProcessor.findTitleColumn` (Code.js 4509-4524): first header
whose lower-cased text contains `title` or `name` (the `item name` test
is subsumed); defaults to column 3. Unlike `findColumnIndices` it does
not strip whitespace. -/
def findTitleColumn (headers : List String) : Nat :=
  match headers.findIdx? (fun h =>
      listHasSub ("title").data (h.data.map jsToLower) ||
      listHasSub ("name").data (h.data.map jsToLower)) with
  | some i => i
  | none => 3

/-- `ChunkedProcessor.findDuplicatesInChunk` (Code.js 4529-4552): count,
within one chunk only, the raw whitespace-trimmed titles of length
greater than 10 that occur more than once in that chunk. -/
def findDuplicatesInChunk (chunkData : List (List String)) (titleIndex : Nat) : Nat :=
  let counts : JSMap Nat := chunkData.foldl (fun m row =>
    let t := jsTrim (getCell row titleIndex)
    if 10 < t.length then jsoInsertWith (· + ·) t 1 m else m) []
  (counts.filter (fun e => decide (1 < e.2))).length

/-- The value `state.detectState.duplicateGroups` reaches over a whole
chunked detect phase (`ChunkedProcessor.executeDetectChunk`, Code.js
4415-4504, driven by repeated `continue(processId)` calls): each call
takes the next `chunkSize` rows and adds that chunk's
`findDuplicatesInChunk` count; time-budget pauses only split the loop
across invocations and do not change the sum. The source fixes
`chunkSize = 800`; for that value this recursion is exactly the loop. -/
def chunkedDetectCountF (titleIndex chunkSize : Nat) :
    Nat → List (List String) → Nat
  | _, [] => 0
  | 0, _ :: _ => 0
  | fuel + 1, r :: rs =>
    findDuplicatesInChunk ((r :: rs).take chunkSize) titleIndex +
      chunkedDetectCountF titleIndex chunkSize fuel (rs.drop (chunkSize - 1))

/-- The chunked total, with the step-count fuel instantiated at the row
count: since every step consumes at least one row (`chunkSize` is the
positive constant 800 in the source), the fuel never runs out. -/
def chunkedDetectCount (titleIndex chunkSize : Nat)
    (data : List (List String)) : Nat :=
  chunkedDetectCountF titleIndex chunkSize data.length data

/-- The slice of a persisted process state the completion claims are
about (`phase`, `currentPhase`, `completed`). -/
structure ProcState where
  phase : String
  currentPhase : Nat
  completed : Bool
  deriving Repr, DecidableEq

/-- The three persistence tiers of `ChunkedProcessor`: the in-memory
`memoryStorage` object, the `CacheService` script cache, and the durable
処理状態 (process state) sheet. Each is an assoc list keyed by process
id. -/
structure Stores where
  memory : List (String × ProcState)
  cache : List (String × ProcState)
  sheet : List (String × ProcState)
  deriving Repr, DecidableEq

/-- Upsert into one tier (both the cache `put` and the sheet row
update-or-append of `saveStateToSheet` behave as upserts). -/
def tierPut (k : String) (v : ProcState) (l : List (String × ProcState)) :
    List (String × ProcState) :=
  if (l.map (fun e => e.1)).contains k then
    l.map (fun e => if e.1 = k then (e.1, v) else e)
  else l ++ [(k, v)]

/-- Delete from one tier. -/
def tierDel (k : String) (l : List (String × ProcState)) :
    List (String × ProcState) :=
  l.filter (fun e => e.1 ≠ k)

/-- Lookup in one tier. -/
def tierGet (k : String) (l : List (String × ProcState)) : Option ProcState :=
  (l.find? (fun e => e.1 = k)).map (fun e => e.2)

/-- `ChunkedProcessor.saveState` (Code.js 3918-3953): write the state to
memory, to the cache, and to the sheet. -/
def saveState (pid : String) (st : ProcState) (σ : Stores) : Stores :=
  { memory := tierPut pid st σ.memory
    cache := tierPut pid st σ.cache
    sheet := tierPut pid st σ.sheet }

/-- `ChunkedProcessor.clearState` (Code.js 4105-4127): delete the state
from memory and from the cache. The 処理状態 sheet tier is not touched
by any code path. -/
def clearState (pid : String) (σ : Stores) : Stores :=
  { σ with memory := tierDel pid σ.memory, cache := tierDel pid σ.cache }

/-- `ChunkedProcessor.getState` (Code.js 4002-4059): try memory, then the
cache (repopulating memory), then the sheet (repopulating memory and the
cache); return the found state, if any, with the updated tiers. -/
def getState (pid : String) (σ : Stores) : Stores × Option ProcState :=
  match tierGet pid σ.memory with
  | some st => (σ, some st)
  | none =>
    match tierGet pid σ.cache with
    | some st => ({ σ with memory := tierPut pid st σ.memory }, some st)
    | none =>
      match tierGet pid σ.sheet with
      | some st =>
        ({ σ with memory := tierPut pid st σ.memory,
                  cache := tierPut pid st σ.cache }, some st)
      | none => (σ, none)

/-- The completion tail of `ChunkedProcessor.executeNextPhase` (Code.js
4266-4281): when the last phase finishes, the state is marked
`completed`, saved via `saveState`, and then `clearState` runs before the
final result is returned. -/
def completeRun (pid : String) (st : ProcState) (σ : Stores) : Stores :=
  let stDone : ProcState := { st with phase := "completed", completed := true }
  clearState pid (saveState pid stDone σ)

/-- No two adjacent whitespace characters: the shape `replace(/\s+/g, " ")`
leaves behind. -/
def noWsPair (l : List Char) : Prop :=
  l.Chain' (fun a b => ¬(isWsChar a = true ∧ isWsChar b = true))

/-- The adjacency shape the symbol-whitespace pass leaves behind: no two
adjacent whitespace characters and no whitespace adjacent to a symbol. -/
def symShape (l : List Char) : Prop :=
  l.Chain' (fun a b =>
    ¬(isWsChar a = true ∧ isWsChar b = true) ∧
    ¬(isWsChar a = true ∧ isSymChar b = true) ∧
    ¬(isSymChar a = true ∧ isWsChar b = true))

/-- Every whitespace character is a plain space. -/
def wsSingle (l : List Char) : Prop :=
  ∀ c ∈ l, isWsChar c = true → c = ' '

/-- Neither end of the list is whitespace (a trimmed list). -/
def edgeOk (l : List Char) : Prop :=
  (∀ c, l.head? = some c → isWsChar c = false) ∧
  (∀ c, l.getLast? = some c → isWsChar c = false)

/-- Property lookup in a JS-object map: the value stored at a key. -/
def jsoLookup {α : Type} (m : JSMap α) (k : String) : Option α :=
  (m.find? (fun e => decide (e.1 = k))).map (fun e => e.2)

/-- The member list a key holds in the grouping object (empty when the
key is absent). -/
def membersAt (m : JSMap (List Item)) (k : String) : List Item :=
  (jsoLookup m k).getD []

/-- The (key, item) pairs `groupByTitle` accumulates, in row order: one
entry per data row whose basic-normalized title and whitespace-trimmed
itemId are both non-empty. -/
def itemEntries (tIdx iIdx : Nat) (dIdx : Option Nat)
    (data : List (List String)) : List (String × Item) :=
  data.filterMap (mkItemRow tIdx iIdx dIdx)

/-- The items accumulated under one normalized-title key, in row order. -/
def itemsFor (tIdx iIdx : Nat) (dIdx : Option Nat)
    (data : List (List String)) (k : String) : List Item :=
  (itemEntries tIdx iIdx dIdx data).filterMap
    (fun e => if e.1 = k then some e.2 else none)

/-- The keys counted by `findDuplicatesInChunk`, in row order: the raw
whitespace-trimmed title of every row where that title is longer than 10
characters. -/
def chunkKeys (titleIndex : Nat) (chunkData : List (List String)) :
    List String :=
  chunkData.filterMap (fun row =>
    if 10 < (jsTrim (getCell row titleIndex)).length
    then some (jsTrim (getCell row titleIndex)) else none)

/-- How many times a key occurs in a key sequence. -/
def keyCount (k : String) (keys : List String) : Nat :=
  (keys.filter (fun t => decide (t = k))).length

/-- The key list of a JS-object map after upserting a sequence of keys:
known keys stay in place, new keys are appended. -/
def keysAfter : List String → List String → List String
  | ks, [] => ks
  | ks, k :: rest => keysAfter (if ks.contains k then ks else ks ++ [k]) rest

/-- Fold a payload sequence into an optional accumulated value, the way
repeated upserts with a combining function do. -/
def combFold {β : Type} (comb : β → β → β) : Option β → List β → Option β
  | o, [] => o
  | some w, v :: vs => combFold comb (some (comb w v)) vs
  | none, v :: vs => combFold comb (some v) vs

/-- The 2024-01-01 member of the spec's decision-tag test vector. -/
def specJan : Item :=
  { itemId := "1", title := "t", originalTitle := "T",
    startDate := "2024-01-01", allData := ["1", "T", "2024-01-01"] }

/-- The 2024-03-01 member of the spec's decision-tag test vector. -/
def specMar : Item :=
  { itemId := "2", title := "t", originalTitle := "T",
    startDate := "2024-03-01", allData := ["2", "T", "2024-03-01"] }

/-- The invalid-date member of the spec's decision-tag test vector. -/
def specInv : Item :=
  { itemId := "3", title := "t", originalTitle := "T",
    startDate := "invalid", allData := ["3", "T", "invalid"] }

/-- A 2024-05-01 member, the most recent of the engine counterexample. -/
def specMay : Item :=
  { itemId := "4", title := "t", originalTitle := "T",
    startDate := "2024-05-01", allData := ["4", "T", "2024-05-01"] }

/-- A second 2024-01-01 member, for exercising tie stability. -/
def specJanB : Item :=
  { itemId := "5", title := "t", originalTitle := "T",
    startDate := "2024-01-01", allData := ["5", "T", "2024-01-01"] }

/-- Rows whose normalized titles are the digit strings 999 and 111: two
duplicate groups of equal size whose keys are JS array-index property
names, so object enumeration reorders them numerically. -/
def c3rows : List (List String) :=
  [["1", "999", ""], ["2", "999", ""], ["3", "111", ""], ["4", "111", ""]]

/-- Rows for the stable-tie witness: two groups of different sizes plus a
tied pair, with alphabetic keys. -/
def c3wrows : List (List String) :=
  [["1", "pear", ""], ["2", "pear", ""], ["3", "apple", ""],
   ["4", "apple", ""], ["5", "apple", ""], ["6", "plum", ""],
   ["7", "plum", ""]]

/-- Header row of the chunked-versus-standard counterexample. -/
def c2headers : List String := [("ItemID"), ("Title"), ("Date")]

/-- Two rows whose titles differ only in letter case: the standard
detector groups them (it lower-cases), the chunked counter does not. -/
def c2rows : List (List String) :=
  [["1", "Widget A Widget ABC", ""], ["2", "widget a widget abc", ""]]

/-- Rows already in basic-normalized form, long enough for the chunked
counter: on these the two detectors agree. -/
def c2wrows : List (List String) :=
  [["1", "aaaaaaaaaaaa", ""], ["2", "aaaaaaaaaaaa", ""],
   ["3", "bbbbbbbbbbbb", ""]]

/-- A comparator induced by an optional integer rank: ranked elements
compare by rank descending (`(a, b) => rank b - rank a`), and any
comparison involving an unranked element is 0, exactly the shape of both
JS comparators in the source (`memberCmp` and the group-length
comparator). -/
def keyCmp {α : Type} (key : α → Option Int) (a b : α) : Int :=
  match key a, key b with
  | some x, some y => y - x
  | _, _ => 0

/-- The consistent comparator induced by a total integer rank,
`(a, b) => rank b - rank a`: what the group comparator computes when
every element is ranked. -/
def intKeyCmp {α : Type} (rk : α → Int) (a b : α) : Int := rk b - rk a

/-! Helper lemmas. -/

theorem memberCmp_eq_keyCmp : memberCmp = keyCmp rankOf := by
  funext a b
  unfold memberCmp keyCmp
  rfl

theorem groupLenCmp_eq_keyCmp :
    groupLenCmp = keyCmp (fun e : String × List Item => some (e.2.length : Int)) := by
  funext a b
  unfold groupLenCmp keyCmp
  rfl

theorem mem_jsSortInsert {α : Type} (cmp : α → α → Int) (x z : α) (l : List α) :
    z ∈ jsSortInsert cmp x l ↔ z = x ∨ z ∈ l := by
  induction l with
  | nil => simp [jsSortInsert]
  | cons y ys ih =>
    by_cases hc : cmp x y < 0
    · simp only [jsSortInsert, if_pos hc, List.mem_cons]
    · simp only [jsSortInsert, if_neg hc, List.mem_cons, ih]
      tauto

theorem jsSortInsert_perm {α : Type} (cmp : α → α → Int) (x : α) (l : List α) :
    (jsSortInsert cmp x l).Perm (x :: l) := by
  induction l with
  | nil => simp [jsSortInsert]
  | cons y ys ih =>
    by_cases hc : cmp x y < 0
    · simp [jsSortInsert, hc]
    · simp only [jsSortInsert, if_neg hc]
      exact (ih.cons y).trans (List.Perm.swap x y ys)

theorem jsStableSort_perm_aux {α : Type} (cmp : α → α → Int) :
    ∀ (l acc : List α),
      (l.foldl (fun a x => jsSortInsert cmp x a) acc).Perm (acc ++ l) := by
  intro l
  induction l with
  | nil => intro acc; simp
  | cons x xs ih =>
    intro acc
    have h1 := ih (jsSortInsert cmp x acc)
    have h2 : (jsSortInsert cmp x acc ++ xs).Perm (acc ++ x :: xs) := by
      refine ((jsSortInsert_perm cmp x acc).append_right xs).trans ?_
      simpa using (List.perm_middle.symm :
        (x :: (acc ++ xs)).Perm (acc ++ x :: xs))
    simpa using h1.trans h2

theorem jsStableSort_perm {α : Type} (cmp : α → α → Int) (l : List α) :
    (jsStableSort cmp l).Perm l := by
  simpa using jsStableSort_perm_aux cmp l []

theorem jsSortInsert_eq_append {α : Type} (key : α → Option Int) (x : α)
    (hx : key x = none) (l : List α) :
    jsSortInsert (keyCmp key) x l = l ++ [x] := by
  induction l with
  | nil => rfl
  | cons y ys ih =>
    have hc : ¬ keyCmp key x y < 0 := by
      unfold keyCmp
      rw [hx]
      simp
    simp [jsSortInsert, hc, ih]

theorem filter_jsSortInsert_neg {α : Type} (cmp : α → α → Int) (p : α → Bool)
    (x : α) (hx : p x = false) (l : List α) :
    (jsSortInsert cmp x l).filter p = l.filter p := by
  induction l with
  | nil => simp [jsSortInsert, hx]
  | cons y ys ih =>
    by_cases hc : cmp x y < 0
    · simp [jsSortInsert, hc, hx]
    · simp only [jsSortInsert, if_neg hc, List.filter_cons]
      rw [ih]

theorem exportSelect_eq_filter (rows : List (List String)) (aIdx iIdx : Nat) :
    exportSelect (rows.map (fun r => getCell r aIdx)) (rows.map (fun r => getCell r iIdx)) =
      (rows.filter (fun r => decide (getCell r aIdx = "終了" ∧ getCell r iIdx ≠ ""))).map
        (fun r => ["End", getCell r iIdx, "OtherListingError"]) := by
  induction rows with
  | nil => rfl
  | cons r rs ih =>
    simp only [List.map_cons, List.filter_cons, exportSelect]
    by_cases h : getCell r aIdx = "終了" ∧ getCell r iIdx ≠ ""
    · simp [h, ih]
    · simp [h, ih]

theorem tierGet_del_self (k : String) (l : List (String × ProcState)) :
    tierGet k (tierDel k l) = none := by
  unfold tierGet tierDel
  rw [List.find?_eq_none.mpr]
  · rfl
  · intro e he
    have := List.of_mem_filter he
    simp only [decide_eq_true_eq] at this ⊢
    exact fun hk => this hk

theorem tierGet_put_self (k : String) (v : ProcState)
    (l : List (String × ProcState)) : tierGet k (tierPut k v l) = some v := by
  unfold tierPut
  by_cases hc : (l.map (fun e => e.1)).contains k = true
  · rw [if_pos hc]
    induction l with
    | nil => simp at hc
    | cons e es ih =>
      by_cases h : e.1 = k
      · simp [tierGet, List.find?, h]
      · simp only [List.map_cons, List.contains_cons] at hc
        rcases (Bool.or_eq_true _ _).mp hc with h1 | h2
        · have h1' : k = e.1 := by simpa using h1
          exact absurd h1'.symm h
        · simpa [tierGet, List.find?, h] using ih h2
  · rw [if_neg hc]
    unfold tierGet
    rw [List.find?_append, List.find?_eq_none.mpr, Option.none_or]
    · simp [List.find?]
    · intro e he
      simp only [decide_eq_true_eq]
      intro hk
      apply hc
      simp only [List.contains_iff_exists_mem_beq]
      exact ⟨e.1, List.mem_map_of_mem _ he, by simp [hk]⟩

theorem filterMap_some_eq_map {α β : Type} (g : α → β) (l : List α) :
    l.filterMap (fun e => some (g e)) = l.map g := by
  induction l with
  | nil => rfl
  | cons x xs ih => simp [List.filterMap_cons, ih]

theorem pairwise_filterMap_jsSortInsert {α : Type} (key : α → Option Int)
    (x : α) :
    ∀ l : List α, (l.filterMap key).Pairwise (fun p q => q ≤ p) →
      ((jsSortInsert (keyCmp key) x l).filterMap key).Pairwise
        (fun p q => q ≤ p) := by
  cases hx : key x with
  | none =>
    intro l hl
    rw [jsSortInsert_eq_append key x hx, List.filterMap_append]
    simpa [List.filterMap, hx] using hl
  | some d =>
    intro l
    induction l with
    | nil =>
      intro _
      simp [jsSortInsert, List.filterMap, hx]
    | cons y ys ih =>
      intro hl
      by_cases hc : keyCmp key x y < 0
      · have he : ∃ e, key y = some e ∧ e < d := by
          unfold keyCmp at hc
          rw [hx] at hc
          cases hy : key y with
          | none => rw [hy] at hc; simp at hc
          | some e =>
            rw [hy] at hc
            simp only [] at hc
            exact ⟨e, rfl, by omega⟩
        obtain ⟨e, hy, hed⟩ := he
        rw [jsSortInsert, if_pos hc]
        simp only [List.filterMap_cons, hx, hy] at hl ⊢
        rw [List.pairwise_cons] at hl ⊢
        refine ⟨?_, List.pairwise_cons.mpr hl⟩
        intro z hz
        rcases List.mem_cons.mp hz with hz | hz
        · omega
        · have := hl.1 z hz
          omega
      · rw [jsSortInsert, if_neg hc]
        cases hy : key y with
        | none =>
          simp only [List.filterMap_cons, hy] at hl ⊢
          exact ih hl
        | some e =>
          have hde : d ≤ e := by
            unfold keyCmp at hc
            rw [hx, hy] at hc
            simp only [] at hc
            omega
          simp only [List.filterMap_cons, hy] at hl ⊢
          rw [List.pairwise_cons] at hl ⊢
          refine ⟨?_, ih hl.2⟩
          intro z hz
          rw [List.mem_filterMap] at hz
          obtain ⟨w, hw, hkw⟩ := hz
          rcases (mem_jsSortInsert _ x w _).mp hw with hw | hw
          · rw [hw, hx] at hkw
            cases hkw
            exact hde
          · exact hl.1 z (List.mem_filterMap.mpr ⟨w, hw, hkw⟩)

theorem jsStableSort_pairwise_filterMap {α : Type} (key : α → Option Int)
    (l : List α) :
    ((jsStableSort (keyCmp key) l).filterMap key).Pairwise
      (fun p q => q ≤ p) := by
  suffices aux : ∀ (l acc : List α),
      (acc.filterMap key).Pairwise (fun p q => q ≤ p) →
      (((l.foldl (fun a x => jsSortInsert (keyCmp key) x a) acc).filterMap
          key).Pairwise (fun p q => q ≤ p)) by
    exact aux l [] (by simp)
  intro l
  induction l with
  | nil => intro acc h; simpa using h
  | cons x xs ih =>
    intro acc h
    exact ih _ (pairwise_filterMap_jsSortInsert key x acc h)

theorem jsSortInsert_pairwise_total {α : Type} (f : α → Nat) (x : α)
    (l : List α) (hl : l.Pairwise (fun a b => f b ≤ f a)) :
    (jsSortInsert (keyCmp (fun e => some ((f e : Int)))) x l).Pairwise
      (fun a b => f b ≤ f a) := by
  have hpre : (l.filterMap (fun e => some ((f e : Int)))).Pairwise
      (fun p q => q ≤ p) := by
    rw [filterMap_some_eq_map, List.pairwise_map]
    exact hl.imp (fun h => by exact_mod_cast h)
  have h := pairwise_filterMap_jsSortInsert (fun e => some ((f e : Int))) x l hpre
  rw [filterMap_some_eq_map, List.pairwise_map] at h
  exact h.imp (fun h => by exact_mod_cast h)

theorem filter_jsSortInsert_total_pos {α : Type} (f : α → Nat) (x : α)
    (n : Nat) (hx : f x = n) :
    ∀ l : List α, l.Pairwise (fun a b => f b ≤ f a) →
      (jsSortInsert (keyCmp (fun e => some ((f e : Int)))) x l).filter
          (fun e => decide (f e = n)) =
        l.filter (fun e => decide (f e = n)) ++ [x] := by
  intro l
  induction l with
  | nil => simp [jsSortInsert, hx]
  | cons y ys ih =>
    intro hp
    by_cases hc : keyCmp (fun e => some ((f e : Int))) x y < 0
    · have hfy : f y < f x := by
        unfold keyCmp at hc
        simp only [] at hc
        omega
      have hall : ∀ z ∈ ys, f z ≤ f y := (List.pairwise_cons.mp hp).1
      have hfilter : (y :: ys).filter (fun e => decide (f e = n)) = [] := by
        rw [List.filter_eq_nil_iff]
        intro z hz
        rcases List.mem_cons.mp hz with hz | hz
        · subst hz; simp; omega
        · have := hall z hz
          simp
          omega
      rw [jsSortInsert, if_pos hc, List.filter_cons, hfilter]
      simp [hx]
    · rw [jsSortInsert, if_neg hc, List.filter_cons]
      rw [ih (List.pairwise_cons.mp hp).2]
      by_cases hy : f y = n
      · simp [hy]
      · simp [hy]

theorem jsStableSort_total_props {α : Type} (f : α → Nat) (l : List α) :
    (jsStableSort (keyCmp (fun e => some ((f e : Int)))) l).Pairwise
        (fun a b => f b ≤ f a) ∧
      ∀ n, (jsStableSort (keyCmp (fun e => some ((f e : Int)))) l).filter
            (fun e => decide (f e = n)) =
          l.filter (fun e => decide (f e = n)) := by
  suffices aux : ∀ (l acc : List α), acc.Pairwise (fun a b => f b ≤ f a) →
      ((l.foldl (fun a x => jsSortInsert (keyCmp (fun e => some ((f e : Int)))) x a)
          acc).Pairwise (fun a b => f b ≤ f a) ∧
        ∀ n, (l.foldl (fun a x => jsSortInsert (keyCmp (fun e => some ((f e : Int)))) x a)
              acc).filter (fun e => decide (f e = n)) =
            acc.filter (fun e => decide (f e = n)) ++
              l.filter (fun e => decide (f e = n))) by
    have h := aux l [] List.Pairwise.nil
    exact ⟨h.1, fun n => by simpa using h.2 n⟩
  intro l
  induction l with
  | nil => intro acc h; simp [h]
  | cons x xs ih =>
    intro acc h
    obtain ⟨ih1, ih2⟩ := ih _ (jsSortInsert_pairwise_total f x acc h)
    refine ⟨ih1, fun n => ?_⟩
    rw [List.foldl_cons, ih2 n]
    by_cases hx : f x = n
    · rw [filter_jsSortInsert_total_pos f x n hx acc h]
      simp [List.filter_cons, hx]
    · rw [filter_jsSortInsert_neg _ _ x (by simp [hx]) acc]
      simp [List.filter_cons, hx]

theorem filter_isNone_jsStableSort {α : Type} (key : α → Option Int)
    (l : List α) :
    (jsStableSort (keyCmp key) l).filter (fun m => (key m).isNone) =
      l.filter (fun m => (key m).isNone) := by
  suffices aux : ∀ (l acc : List α),
      (l.foldl (fun a x => jsSortInsert (keyCmp key) x a) acc).filter
          (fun m => (key m).isNone) =
        acc.filter (fun m => (key m).isNone) ++
          l.filter (fun m => (key m).isNone) by
    simpa using aux l []
  intro l
  induction l with
  | nil => intro acc; simp
  | cons x xs ih =>
    intro acc
    rw [List.foldl_cons, ih]
    cases hx : key x with
    | none =>
      rw [jsSortInsert_eq_append key x hx, List.filter_append]
      simp [List.filter_cons, hx]
    | some d =>
      rw [filter_jsSortInsert_neg _ _ x (by simp [hx]) acc]
      simp [List.filter_cons, hx]

theorem splitComma_ne_nil (cs : List Char) : splitComma cs ≠ [] := by
  rw [splitComma.eq_def]
  split
  · simp
  · simp
  · split <;> simp

theorem splitComma_cons_ne (c : Char) (rest : List Char) (hc : c ≠ ',') :
    splitComma (c :: rest) =
      match splitComma rest with
      | g :: gs => (c :: g) :: gs
      | [] => [[c]] := by
  rw [splitComma.eq_def]
  split
  · simp_all
  · rename_i heq
    rw [List.cons.injEq] at heq
    exact absurd heq.1 hc
  · rename_i c' rest' hne heq
    rw [List.cons.injEq] at heq
    rw [heq.1, heq.2]

theorem parseCSVGo_cons_other (c : Char) (rest : List Char) (inQ : Bool)
    (cur : List Char) (hq : c ≠ '"') (hcm : ¬(c = ',' ∧ inQ = false)) :
    parseCSVGo (c :: rest) inQ cur = parseCSVGo rest inQ (cur ++ [c]) := by
  rw [parseCSVGo.eq_def]
  split <;> simp_all

theorem parseLineGo_cons_other (c : Char) (rest : List Char) (inQ : Bool)
    (cur : List Char) (hq : c ≠ '"') (hcm : ¬(c = ',' ∧ inQ = false)) :
    parseLineGo (c :: rest) inQ cur = parseLineGo rest inQ (cur ++ [c]) := by
  rw [parseLineGo.eq_def]
  split <;> simp_all

theorem parseCSVGo_noQuote (cs : List Char) : ∀ (cur : List Char), '"' ∉ cs →
    parseCSVGo cs false cur =
      (match splitComma cs with
        | [] => [jsTrimL cur]
        | g :: gs => jsTrimL (cur ++ g) :: gs.map jsTrimL) := by
  induction cs with
  | nil => intro cur _; simp [parseCSVGo, splitComma]
  | cons c rest ih =>
    intro cur h
    have hq : c ≠ '"' := fun e => h (e ▸ List.mem_cons_self c rest)
    have hrest : '"' ∉ rest := fun hm => h (List.mem_cons_of_mem _ hm)
    by_cases hc : c = ','
    · subst hc
      have hstep : parseCSVGo (',' :: rest) false cur =
          jsTrimL cur :: parseCSVGo rest false [] := rfl
      rw [hstep, ih [] hrest]
      cases hsp : splitComma rest with
      | nil => exact absurd hsp (splitComma_ne_nil rest)
      | cons g gs =>
        have : splitComma (',' :: rest) = [] :: g :: gs := by
          rw [show splitComma (',' :: rest) = [] :: splitComma rest from rfl, hsp]
        rw [this]
        simp
    · rw [parseCSVGo_cons_other c rest false cur hq (fun hx => hc hx.1),
        ih (cur ++ [c]) hrest, splitComma_cons_ne c rest hc]
      cases hsp : splitComma rest with
      | nil => exact absurd hsp (splitComma_ne_nil rest)
      | cons g gs => simp

theorem parseLineGo_noQuote (cs : List Char) : ∀ (cur : List Char), '"' ∉ cs →
    parseLineGo cs false cur =
      (match splitComma cs with
        | [] => [jsTrimL cur]
        | g :: gs => jsTrimL (cur ++ g) :: gs.map jsTrimL) := by
  induction cs with
  | nil => intro cur _; simp [parseLineGo, splitComma]
  | cons c rest ih =>
    intro cur h
    have hq : c ≠ '"' := fun e => h (e ▸ List.mem_cons_self c rest)
    have hrest : '"' ∉ rest := fun hm => h (List.mem_cons_of_mem _ hm)
    by_cases hc : c = ','
    · subst hc
      have hstep : parseLineGo (',' :: rest) false cur =
          jsTrimL cur :: parseLineGo rest false [] := rfl
      rw [hstep, ih [] hrest]
      cases hsp : splitComma rest with
      | nil => exact absurd hsp (splitComma_ne_nil rest)
      | cons g gs =>
        have : splitComma (',' :: rest) = [] :: g :: gs := by
          rw [show splitComma (',' :: rest) = [] :: splitComma rest from rfl, hsp]
        rw [this]
        simp
    · rw [parseLineGo_cons_other c rest false cur hq (fun hx => hc hx.1),
        ih (cur ++ [c]) hrest, splitComma_cons_ne c rest hc]
      cases hsp : splitComma rest with
      | nil => exact absurd hsp (splitComma_ne_nil rest)
      | cons g gs => simp

theorem parseCSVGo_length_pos (cs : List Char) (inQ : Bool) (cur : List Char) :
    1 ≤ (parseCSVGo cs inQ cur).length := by
  induction cs, inQ, cur using parseCSVGo.induct <;> simp [parseCSVGo, *]

theorem parseLineGo_length_pos (cs : List Char) (inQ : Bool) (cur : List Char) :
    1 ≤ (parseLineGo cs inQ cur).length := by
  induction cs, inQ, cur using parseLineGo.induct <;> simp [parseLineGo, *]

theorem splitSpace_ne_nil (cs : List Char) : splitSpace cs ≠ [] := by
  rw [splitSpace.eq_def]
  split
  · simp
  · simp
  · split <;> simp

theorem jsoInsertWith_map_untouched {β : Type} (comb : β → β → β) (k : String)
    (v : β) (es : JSMap β) (h : k ∉ es.map (fun e => e.1)) :
    es.map (fun e => if e.1 = k then (e.1, comb e.2 v) else e) = es := by
  induction es with
  | nil => rfl
  | cons e rest ih =>
    simp only [List.map_cons, List.mem_cons] at h ⊢
    rw [if_neg (fun hk => h (Or.inl hk.symm)), ih (fun hk => h (Or.inr hk))]

theorem jsoInsertWith_cons_hit {β : Type} (comb : β → β → β) (k : String)
    (v : β) (e : String × β) (es : JSMap β) (he : e.1 = k)
    (hnd : ((e :: es).map (fun x => x.1)).Nodup) :
    jsoInsertWith comb k v (e :: es) = (e.1, comb e.2 v) :: es := by
  unfold jsoInsertWith
  have hc : ((e :: es).map (fun x => x.1)).contains k = true := by
    rw [List.elem_iff]
    exact List.mem_cons.mpr (Or.inl he.symm)
  rw [if_pos hc, List.map_cons, if_pos he]
  have hk : k ∉ es.map (fun x => x.1) := by
    rw [List.map_cons, List.nodup_cons] at hnd
    rw [← he]
    exact hnd.1
  rw [jsoInsertWith_map_untouched comb k v es hk]

theorem jsoInsertWith_cons_miss {β : Type} (comb : β → β → β) (k : String)
    (v : β) (e : String × β) (es : JSMap β) (he : e.1 ≠ k) :
    jsoInsertWith comb k v (e :: es) = e :: jsoInsertWith comb k v es := by
  unfold jsoInsertWith
  have hc : ((e :: es).map (fun x => x.1)).contains k =
      (es.map (fun x => x.1)).contains k := by
    simp only [List.map_cons, List.contains_cons]
    have : (k == e.1) = false := by
      rw [beq_eq_false_iff_ne]
      exact fun hk => he hk.symm
    rw [this, Bool.false_or]
  rw [hc]
  by_cases h2 : (es.map (fun x => x.1)).contains k = true
  · rw [if_pos h2, if_pos h2, List.map_cons, if_neg he]
  · rw [if_neg h2, if_neg h2, List.cons_append]

theorem jso_keys_insertWith {β : Type} (comb : β → β → β) (k : String) (v : β)
    (m : JSMap β) :
    (jsoInsertWith comb k v m).map (fun e => e.1) =
      if (m.map (fun e => e.1)).contains k then m.map (fun e => e.1)
      else m.map (fun e => e.1) ++ [k] := by
  unfold jsoInsertWith
  by_cases h : (m.map (fun e => e.1)).contains k = true
  · rw [if_pos h, if_pos h, List.map_map]
    apply List.map_congr_left
    intro e _
    by_cases he : e.1 = k
    · simp [he]
    · simp [he]
  · rw [if_neg h, if_neg h, List.map_append]
    rfl

theorem jso_nodup_insertWith {β : Type} (comb : β → β → β) (k : String) (v : β)
    (m : JSMap β) (h : (m.map (fun e => e.1)).Nodup) :
    ((jsoInsertWith comb k v m).map (fun e => e.1)).Nodup := by
  rw [jso_keys_insertWith]
  by_cases hc : (m.map (fun e => e.1)).contains k = true
  · rw [if_pos hc]
    exact h
  · rw [if_neg hc]
    refine List.Nodup.append h (List.nodup_singleton k) ?_
    intro a ha hb
    rw [List.mem_singleton] at hb
    subst hb
    exact hc (List.elem_iff.mpr ha)

theorem jsoLookup_nil {β : Type} (k : String) : jsoLookup ([] : JSMap β) k = none := rfl

theorem jsoLookup_cons {β : Type} (e : String × β) (es : JSMap β) (k : String) :
    jsoLookup (e :: es) k = if e.1 = k then some e.2 else jsoLookup es k := by
  unfold jsoLookup
  by_cases he : e.1 = k
  · rw [List.find?_cons_of_pos _ (by simpa using he), if_pos he]
    rfl
  · rw [List.find?_cons_of_neg _ (by simpa using he), if_neg he]

theorem jsoLookup_insertWith {β : Type} (comb : β → β → β) (k : String) (v : β) :
    ∀ (m : JSMap β), ((m.map (fun e => e.1)).Nodup) → ∀ k',
      jsoLookup (jsoInsertWith comb k v m) k' =
        if k' = k then
          (match jsoLookup m k with
            | some w => some (comb w v)
            | none => some v)
        else jsoLookup m k' := by
  intro m
  induction m with
  | nil =>
    intro _ k'
    unfold jsoInsertWith
    simp only [List.map_nil, List.contains_nil, Bool.false_eq_true, if_false,
      List.nil_append, jsoLookup_nil]
    rw [jsoLookup_cons]
    by_cases hk : k' = k
    · rw [if_pos hk.symm, if_pos hk]
    · rw [if_neg (fun h => hk h.symm), if_neg hk, jsoLookup_nil]
  | cons e es ih =>
    intro hnd k'
    by_cases he : e.1 = k
    · rw [jsoInsertWith_cons_hit comb k v e es he hnd]
      simp only [jsoLookup_cons]
      by_cases hk : k' = k
      · rw [if_pos (show e.1 = k' by rw [he, hk]), if_pos hk, if_pos he]
      · have hne : ¬ e.1 = k' := by rw [he]; exact fun h => hk h.symm
        rw [if_neg hne, if_neg hk, if_neg hne]
    · rw [jsoInsertWith_cons_miss comb k v e es he]
      simp only [jsoLookup_cons]
      rw [List.map_cons, List.nodup_cons] at hnd
      by_cases hk : k' = k
      · have hne : ¬ e.1 = k' := by rw [hk]; exact he
        rw [if_neg hne, ih hnd.2 k', if_pos hk, if_pos hk, if_neg he]
      · by_cases he' : e.1 = k'
        · rw [if_pos he', if_neg hk, if_pos he']
        · rw [if_neg he', if_neg he', ih hnd.2 k', if_neg hk, if_neg hk]

theorem jsoLookup_foldl {β : Type} (comb : β → β → β) :
    ∀ (es : List (String × β)) (m : JSMap β), ((m.map (fun e => e.1)).Nodup) →
      ∀ k, jsoLookup (es.foldl (fun acc e => jsoInsertWith comb e.1 e.2 acc) m) k =
        combFold comb (jsoLookup m k)
          ((es.filter (fun e => decide (e.1 = k))).map (fun e => e.2)) := by
  intro es
  induction es with
  | nil =>
    intro m _ k
    simp [combFold]
  | cons e rest ih =>
    intro m hm k
    rw [List.foldl_cons, ih _ (jso_nodup_insertWith comb e.1 e.2 m hm) k,
      jsoLookup_insertWith comb e.1 e.2 m hm k, List.filter_cons]
    by_cases hk : e.1 = k
    · rw [if_pos (show decide (e.1 = k) = true by simp [hk]),
        if_pos hk.symm, List.map_cons, hk]
      cases hl : jsoLookup m k with
      | none => rfl
      | some w => rfl
    · rw [if_neg (show ¬ decide (e.1 = k) = true by simp [hk]),
        if_neg (fun h => hk h.symm)]

theorem jsoLookup_of_mem {β : Type} :
    ∀ (m : JSMap β), ((m.map (fun e => e.1)).Nodup) →
      ∀ e ∈ m, jsoLookup m e.1 = some e.2 := by
  intro m
  induction m with
  | nil => intro _ e he; exact absurd he (List.not_mem_nil e)
  | cons f fs ih =>
    intro hnd e he
    rw [List.map_cons, List.nodup_cons] at hnd
    rcases List.mem_cons.mp he with he | he
    · subst he
      rw [jsoLookup_cons, if_pos rfl]
    · have hf : f.1 ≠ e.1 := by
        intro hk
        exact hnd.1 (hk ▸ List.mem_map_of_mem (fun x => x.1) he)
      rw [jsoLookup_cons, if_neg hf]
      exact ih hnd.2 e he

theorem jso_keys_foldl {β : Type} (comb : β → β → β) :
    ∀ (es : List (String × β)) (m : JSMap β),
      ((es.foldl (fun acc e => jsoInsertWith comb e.1 e.2 acc) m).map
          (fun e => e.1)) =
        keysAfter (m.map (fun e => e.1)) (es.map (fun e => e.1)) := by
  intro es
  induction es with
  | nil => intro m; rfl
  | cons e rest ih =>
    intro m
    rw [List.foldl_cons, ih, List.map_cons]
    show keysAfter ((jsoInsertWith comb e.1 e.2 m).map (fun x => x.1)) _ =
      keysAfter (if (m.map (fun x => x.1)).contains e.1 then m.map (fun x => x.1)
        else m.map (fun x => x.1) ++ [e.1]) _
    rw [jso_keys_insertWith]

theorem jso_nodup_foldl {β : Type} (comb : β → β → β) :
    ∀ (es : List (String × β)) (m : JSMap β), ((m.map (fun e => e.1)).Nodup) →
      (((es.foldl (fun acc e => jsoInsertWith comb e.1 e.2 acc) m).map
          (fun e => e.1)).Nodup) := by
  intro es
  induction es with
  | nil => intro m hm; exact hm
  | cons e rest ih =>
    intro m hm
    rw [List.foldl_cons]
    exact ih _ (jso_nodup_insertWith comb e.1 e.2 m hm)

theorem filter_map_fst_keyProp {β : Type} (p : String × β → Bool)
    (q : String → Bool) :
    ∀ m : JSMap β, (∀ e ∈ m, p e = q e.1) →
      (m.filter p).map (fun e => e.1) = (m.map (fun e => e.1)).filter q := by
  intro m
  induction m with
  | nil => intro _; rfl
  | cons e es ih =>
    intro h
    rw [List.filter_cons, List.map_cons, List.filter_cons,
      ← h e (List.mem_cons_self e es)]
    by_cases hp : p e = true
    · rw [if_pos hp, if_pos hp, List.map_cons,
        ih (fun x hx => h x (List.mem_cons_of_mem e hx))]
    · rw [if_neg hp, if_neg hp, ih (fun x hx => h x (List.mem_cons_of_mem e hx))]

theorem foldl_match_filterMap {γ δ β : Type} (f : γ → Option δ)
    (g : β → δ → β) (step : β → γ → β)
    (hstep : ∀ b x, step b x = (match f x with | some y => g b y | none => b)) :
    ∀ (data : List γ) (b : β), data.foldl step b = (data.filterMap f).foldl g b := by
  intro data
  induction data with
  | nil => intro b; rfl
  | cons x xs ih =>
    intro b
    rw [List.foldl_cons, hstep, List.filterMap_cons]
    cases f x with
    | none => exact ih b
    | some y => rw [List.foldl_cons]; exact ih (g b y)

theorem combFold_items_some (vs : List Item) :
    ∀ acc : List Item,
      combFold (· ++ ·) (some acc) (vs.map (fun it => [it])) = some (acc ++ vs) := by
  induction vs with
  | nil => intro acc; simp [combFold]
  | cons v rest ih =>
    intro acc
    rw [List.map_cons]
    show combFold (· ++ ·) (some (acc ++ [v])) (rest.map (fun it => [it])) = _
    rw [ih (acc ++ [v])]
    simp

theorem combFold_items (vs : List Item) :
    combFold (· ++ ·) none (vs.map (fun it => [it])) =
      match vs with
      | [] => none
      | v :: rest => some (v :: rest) := by
  cases vs with
  | nil => rfl
  | cons v rest =>
    rw [List.map_cons]
    show combFold (· ++ ·) (some [v]) (rest.map (fun it => [it])) = _
    rw [combFold_items_some rest [v]]
    simp

theorem combFold_ones_some (n : Nat) :
    ∀ acc : Nat, combFold (· + ·) (some acc) (List.replicate n 1) = some (acc + n) := by
  induction n with
  | zero => intro acc; simp [combFold]
  | succ m ih =>
    intro acc
    rw [List.replicate_succ]
    show combFold (· + ·) (some (acc + 1)) (List.replicate m 1) = _
    rw [ih (acc + 1)]
    congr 1
    omega

theorem combFold_ones (n : Nat) :
    combFold (· + ·) none (List.replicate n 1) =
      match n with
      | 0 => none
      | m + 1 => some (m + 1) := by
  cases n with
  | zero => rfl
  | succ m =>
    rw [List.replicate_succ]
    show combFold (· + ·) (some 1) (List.replicate m 1) = _
    rw [combFold_ones_some m 1]
    congr 1
    omega

theorem filterMap_congr_mem {γ δ : Type} (f g : γ → Option δ) :
    ∀ l : List γ, (∀ a ∈ l, f a = g a) → l.filterMap f = l.filterMap g := by
  intro l
  induction l with
  | nil => intro _; rfl
  | cons x xs ih =>
    intro h
    rw [List.filterMap_cons, List.filterMap_cons, h x (List.mem_cons_self x xs),
      ih (fun a ha => h a (List.mem_cons_of_mem x ha))]

theorem filterMap_if_key {β : Type} (k : String) :
    ∀ l : List (String × β),
      l.filterMap (fun e => if e.1 = k then some e.2 else none) =
        (l.filter (fun e => decide (e.1 = k))).map (fun e => e.2) := by
  intro l
  induction l with
  | nil => rfl
  | cons e es ih =>
    rw [List.filterMap_cons, List.filter_cons]
    by_cases he : e.1 = k
    · rw [if_pos he, if_pos (by simpa using he), List.map_cons, ih]
    · rw [if_neg he, if_neg (by simpa using he), ih]

theorem map_one_replicate {γ : Type} :
    ∀ l : List γ, l.map (fun _ => (1 : Nat)) = List.replicate l.length 1 := by
  intro l
  induction l with
  | nil => rfl
  | cons x xs ih => rw [List.map_cons, List.length_cons, List.replicate_succ, ih]

theorem mem_keysAfter :
    ∀ (ks ks₀ : List String) (k : String),
      k ∈ keysAfter ks₀ ks ↔ k ∈ ks₀ ∨ k ∈ ks := by
  intro ks
  induction ks with
  | nil => intro ks₀ k; simp [keysAfter]
  | cons x rest ih =>
    intro ks₀ k
    rw [keysAfter, ih]
    by_cases hc : ks₀.contains x
    · rw [if_pos hc]
      constructor
      · intro h
        rcases h with h | h
        · exact Or.inl h
        · exact Or.inr (List.mem_cons_of_mem x h)
      · intro h
        rcases h with h | h
        · exact Or.inl h
        · rcases List.mem_cons.mp h with h | h
          · exact Or.inl (h ▸ List.elem_iff.mp hc)
          · exact Or.inr h
    · rw [if_neg hc]
      simp only [List.mem_append, List.mem_singleton, List.mem_cons]
      tauto

theorem jsoEnumOrder_eq_self {α : Type} (m : JSMap α)
    (h : ∀ e ∈ m, isArrayIndexStr e.1 = false) : jsoEnumOrder m = m := by
  unfold jsoEnumOrder
  have h1 : m.filter (fun e => isArrayIndexStr e.1) = [] := by
    rw [List.filter_eq_nil_iff]
    intro e he
    simp [h e he]
  have h2 : m.filter (fun e => !isArrayIndexStr e.1) = m := by
    rw [List.filter_eq_self]
    intro e he
    simp [h e he]
  rw [h1, h2]
  rfl

theorem jsoEnumOrder_perm {α : Type} (m : JSMap α) : (jsoEnumOrder m).Perm m := by
  unfold jsoEnumOrder
  refine ((jsStableSort_perm _ _).append_right _).trans ?_
  exact List.filter_append_perm _ m

theorem groupByTitle_eq_foldl (tIdx iIdx : Nat) (dIdx : Option Nat)
    (data : List (List String)) :
    groupByTitle tIdx iIdx dIdx data =
      ((itemEntries tIdx iIdx dIdx data).map
          (fun e => (e.1, ([e.2] : List Item)))).foldl
        (fun m e => jsoInsertWith (· ++ ·) e.1 e.2 m) [] := by
  unfold groupByTitle itemEntries
  rw [List.foldl_map]
  exact foldl_match_filterMap (mkItemRow tIdx iIdx dIdx)
    (fun m y => jsoInsertWith (· ++ ·) y.1 [y.2] m) _
    (fun b x => by cases mkItemRow tIdx iIdx dIdx x <;> rfl) data []

theorem groupByTitle_keys (tIdx iIdx : Nat) (dIdx : Option Nat)
    (data : List (List String)) :
    (groupByTitle tIdx iIdx dIdx data).map (fun e => e.1) =
      keysAfter [] ((itemEntries tIdx iIdx dIdx data).map (fun e => e.1)) := by
  rw [groupByTitle_eq_foldl, jso_keys_foldl, List.map_map]
  rfl

theorem groupByTitle_keys_nodup (tIdx iIdx : Nat) (dIdx : Option Nat)
    (data : List (List String)) :
    ((groupByTitle tIdx iIdx dIdx data).map (fun e => e.1)).Nodup := by
  rw [groupByTitle_eq_foldl]
  exact jso_nodup_foldl _ _ [] List.nodup_nil

theorem combFold_filter_pairs (k : String) (entries : List (String × Item)) :
    ((entries.map (fun e => (e.1, ([e.2] : List Item)))).filter
        (fun e => decide (e.1 = k))).map (fun e => e.2) =
      ((entries.filter (fun e => decide (e.1 = k))).map (fun e => e.2)).map
        (fun it => [it]) := by
  rw [List.filter_map, List.map_map, List.map_map]
  rfl

theorem jsoLookup_groupByTitle (tIdx iIdx : Nat) (dIdx : Option Nat)
    (data : List (List String)) (k : String) :
    jsoLookup (groupByTitle tIdx iIdx dIdx data) k =
      match ((itemEntries tIdx iIdx dIdx data).filter
          (fun e => decide (e.1 = k))).map (fun e => e.2) with
      | [] => none
      | v :: rest => some (v :: rest) := by
  rw [groupByTitle_eq_foldl,
    jsoLookup_foldl (· ++ ·) _ [] List.nodup_nil k, jsoLookup_nil,
    combFold_filter_pairs, combFold_items]

theorem membersAt_groupByTitle (tIdx iIdx : Nat) (dIdx : Option Nat)
    (data : List (List String)) (k : String) :
    membersAt (groupByTitle tIdx iIdx dIdx data) k =
      itemsFor tIdx iIdx dIdx data k := by
  unfold membersAt itemsFor
  rw [jsoLookup_groupByTitle, filterMap_if_key]
  cases ((itemEntries tIdx iIdx dIdx data).filter
      (fun e => decide (e.1 = k))).map (fun e => e.2) with
  | nil => rfl
  | cons v rest => rfl

theorem groupByTitle_val (tIdx iIdx : Nat) (dIdx : Option Nat)
    (data : List (List String)) :
    ∀ e ∈ groupByTitle tIdx iIdx dIdx data,
      e.2 = ((itemEntries tIdx iIdx dIdx data).filter
          (fun x => decide (x.1 = e.1))).map (fun x => x.2) := by
  intro e he
  have hl := jsoLookup_of_mem _ (groupByTitle_keys_nodup tIdx iIdx dIdx data) e he
  rw [jsoLookup_groupByTitle] at hl
  cases hvs : ((itemEntries tIdx iIdx dIdx data).filter
      (fun x => decide (x.1 = e.1))).map (fun x => x.2) with
  | nil =>
    rw [hvs] at hl
    exact absurd hl (by simp)
  | cons v rest =>
    rw [hvs] at hl
    injection hl with h
    exact h.symm

theorem groupByTitle_val_len (tIdx iIdx : Nat) (dIdx : Option Nat)
    (data : List (List String)) :
    ∀ e ∈ groupByTitle tIdx iIdx dIdx data,
      e.2.length =
        keyCount e.1 ((itemEntries tIdx iIdx dIdx data).map (fun x => x.1)) := by
  intro e he
  rw [groupByTitle_val tIdx iIdx dIdx data e he, List.length_map]
  unfold keyCount
  rw [← filter_map_fst_keyProp (fun x => decide (x.1 = e.1))
    (fun t => decide (t = e.1)) _ (fun x _ => rfl), List.length_map]

theorem dupGroupsOf_length (tIdx iIdx : Nat) (dIdx : Option Nat)
    (data : List (List String)) :
    (dupGroupsOf tIdx iIdx dIdx data).length =
      ((keysAfter []
          ((itemEntries tIdx iIdx dIdx data).map (fun e => e.1))).filter
        (fun k => decide (1 < keyCount k
          ((itemEntries tIdx iIdx dIdx data).map (fun e => e.1))))).length := by
  unfold dupGroupsOf
  rw [(jsStableSort_perm _ _).length_eq,
    ((jsoEnumOrder_perm _).filter _).length_eq]
  have hpt : ∀ e ∈ groupByTitle tIdx iIdx dIdx data,
      decide (1 < e.2.length) =
        decide (1 < keyCount e.1
          ((itemEntries tIdx iIdx dIdx data).map (fun x => x.1))) := by
    intro e he
    rw [groupByTitle_val_len tIdx iIdx dIdx data e he]
  calc ((groupByTitle tIdx iIdx dIdx data).filter
        (fun e => decide (1 < e.2.length))).length
      = (((groupByTitle tIdx iIdx dIdx data).filter
          (fun e => decide (1 < e.2.length))).map (fun e => e.1)).length :=
        (List.length_map _ _).symm
    _ = (((groupByTitle tIdx iIdx dIdx data).map (fun e => e.1)).filter
          (fun k => decide (1 < keyCount k
            ((itemEntries tIdx iIdx dIdx data).map (fun e => e.1))))).length := by
        rw [filter_map_fst_keyProp
          (fun e : String × List Item => decide (1 < e.2.length))
          (fun k => decide (1 < keyCount k
            ((itemEntries tIdx iIdx dIdx data).map (fun x => x.1)))) _ hpt]
    _ = _ := by rw [groupByTitle_keys]

theorem chunkCounts_eq (chunkData : List (List String)) (tI : Nat) :
    chunkData.foldl (fun m row =>
        let t := jsTrim (getCell row tI)
        if 10 < t.length then jsoInsertWith (· + ·) t 1 m else m) [] =
      ((chunkKeys tI chunkData).map (fun t => (t, (1 : Nat)))).foldl
        (fun m e => jsoInsertWith (· + ·) e.1 e.2 m) [] := by
  rw [List.foldl_map]
  unfold chunkKeys
  exact foldl_match_filterMap _ (fun m t => jsoInsertWith (· + ·) t 1 m) _
    (fun b x => by
      by_cases h : 10 < (jsTrim (getCell x tI)).length
      · simp [h]
      · simp [h]) chunkData []

theorem chunkCounts_keys (chunkData : List (List String)) (tI : Nat) :
    (chunkData.foldl (fun m row =>
        let t := jsTrim (getCell row tI)
        if 10 < t.length then jsoInsertWith (· + ·) t 1 m else m) []).map
        (fun e => e.1) =
      keysAfter [] (chunkKeys tI chunkData) := by
  rw [chunkCounts_eq, jso_keys_foldl, List.map_map]
  show keysAfter [] (List.map (fun t : String => t) (chunkKeys tI chunkData)) = _
  rw [List.map_id']

theorem chunkCounts_val (chunkData : List (List String)) (tI : Nat) :
    ∀ e ∈ chunkData.foldl (fun m row =>
        let t := jsTrim (getCell row tI)
        if 10 < t.length then jsoInsertWith (· + ·) t 1 m else m) [],
      e.2 = keyCount e.1 (chunkKeys tI chunkData) := by
  intro e he
  have hnd : ((chunkData.foldl (fun m row =>
      let t := jsTrim (getCell row tI)
      if 10 < t.length then jsoInsertWith (· + ·) t 1 m else m) []).map
        (fun x => x.1)).Nodup := by
    rw [chunkCounts_eq]
    exact jso_nodup_foldl _ _ [] List.nodup_nil
  have hl := jsoLookup_of_mem _ hnd e he
  rw [chunkCounts_eq, jsoLookup_foldl (· + ·) _ [] List.nodup_nil e.1,
    jsoLookup_nil] at hl
  have hpl : (((chunkKeys tI chunkData).map (fun t => (t, (1 : Nat)))).filter
        (fun x => decide (x.1 = e.1))).map (fun x => x.2) =
      List.replicate (keyCount e.1 (chunkKeys tI chunkData)) 1 := by
    rw [List.filter_map, List.map_map]
    show List.map (fun t : String => (1 : Nat))
        ((chunkKeys tI chunkData).filter (fun t => decide (t = e.1))) =
      List.replicate (keyCount e.1 (chunkKeys tI chunkData)) 1
    rw [map_one_replicate]
    rfl
  rw [hpl, combFold_ones] at hl
  cases hc : keyCount e.1 (chunkKeys tI chunkData) with
  | zero =>
    rw [hc] at hl
    exact absurd hl (by simp)
  | succ n =>
    rw [hc] at hl
    injection hl with h
    exact h.symm

theorem findDuplicatesInChunk_eq (chunkData : List (List String)) (tI : Nat) :
    findDuplicatesInChunk chunkData tI =
      ((keysAfter [] (chunkKeys tI chunkData)).filter
        (fun k => decide (1 < keyCount k (chunkKeys tI chunkData)))).length := by
  unfold findDuplicatesInChunk
  dsimp only
  have hpt : ∀ e ∈ chunkData.foldl (fun m row =>
      let t := jsTrim (getCell row tI)
      if 10 < t.length then jsoInsertWith (· + ·) t 1 m else m) [],
      decide (1 < e.2) =
        decide (1 < keyCount e.1 (chunkKeys tI chunkData)) := by
    intro e he
    rw [chunkCounts_val chunkData tI e he]
  calc ((chunkData.foldl (fun m row =>
        let t := jsTrim (getCell row tI)
        if 10 < t.length then jsoInsertWith (· + ·) t 1 m else m) []).filter
          (fun e => decide (1 < e.2))).length
      = (((chunkData.foldl (fun m row =>
          let t := jsTrim (getCell row tI)
          if 10 < t.length then jsoInsertWith (· + ·) t 1 m else m) []).filter
            (fun e => decide (1 < e.2))).map (fun e => e.1)).length :=
        (List.length_map _ _).symm
    _ = (((chunkData.foldl (fun m row =>
          let t := jsTrim (getCell row tI)
          if 10 < t.length then jsoInsertWith (· + ·) t 1 m else m) []).map
            (fun e => e.1)).filter
          (fun k => decide (1 < keyCount k (chunkKeys tI chunkData)))).length := by
        rw [filter_map_fst_keyProp (fun e : String × Nat => decide (1 < e.2))
          (fun k => decide (1 < keyCount k (chunkKeys tI chunkData))) _ hpt]
    _ = _ := by rw [chunkCounts_keys]

theorem chunkedDetectCount_single (tI cs : Nat) (data : List (List String))
    (h : data.length ≤ cs) :
    chunkedDetectCount tI cs data = findDuplicatesInChunk data tI := by
  unfold chunkedDetectCount
  cases data with
  | nil => rfl
  | cons r rs =>
    show chunkedDetectCountF tI cs (rs.length + 1) (r :: rs) = _
    rw [chunkedDetectCountF]
    rw [List.length_cons] at h
    rw [List.take_of_length_le (by simpa using h),
      List.drop_eq_nil_of_le (by omega)]
    have hz : chunkedDetectCountF tI cs rs.length [] = 0 := by
      cases rs with
      | nil => rfl
      | cons x xs => rfl
    rw [hz]
    omega

theorem sym_not_ws (c : Char) (h : isSymChar c = true) : isWsChar c = false := by
  simp only [isSymChar, Bool.or_eq_true, decide_eq_true_eq] at h
  rcases h with ((((h | h) | h) | h) | h) <;> subst h <;> decide

theorem ws_not_sym (c : Char) (h : isWsChar c = true) : isSymChar c = false := by
  simp only [isWsChar, Bool.or_eq_true, decide_eq_true_eq] at h
  rcases h with (((((h | h) | h) | h) | h) | h) <;> subst h <;> decide

theorem kept_not_lbracket (c : Char) (h : isKeptChar c = true) : c ≠ '[' := by
  intro heq
  subst heq
  exact absurd h (by decide)

theorem jsToLower_spec (c : Char) :
    jsToLower c = c ∨
      (jsToLower (jsToLower c) = jsToLower c ∧
       isKeptChar c = true ∧ isKeptChar (jsToLower c) = true ∧
       isWsChar c = false ∧ isWsChar (jsToLower c) = false ∧
       isSymChar c = false ∧ isSymChar (jsToLower c) = false ∧
       jsToLower c ≠ '(' ∧ jsToLower c ≠ '[') := by
  rw [jsToLower.eq_def]
  split <;> first | exact Or.inl rfl | exact Or.inr (by decide)

theorem jsToLower_idem (c : Char) : jsToLower (jsToLower c) = jsToLower c := by
  rcases jsToLower_spec c with h | h
  · rw [h]
    exact h
  · exact h.1

theorem jsToLower_kept (c : Char) (h : isKeptChar c = true) :
    isKeptChar (jsToLower c) = true := by
  rcases jsToLower_spec c with h' | h'
  · rw [h']
    exact h
  · exact h'.2.2.1

theorem jsToLower_ws (c : Char) : isWsChar (jsToLower c) = isWsChar c := by
  rcases jsToLower_spec c with h' | h'
  · rw [h']
  · rw [h'.2.2.2.2.1, h'.2.2.2.1]

theorem jsToLower_ne_paren (c : Char) (h : c ≠ '(') : jsToLower c ≠ '(' := by
  rcases jsToLower_spec c with h' | h'
  · rw [h']
    exact h
  · exact h'.2.2.2.2.2.2.2.1

theorem jsToLower_ne_bracket (c : Char) (h : c ≠ '[') : jsToLower c ≠ '[' := by
  rcases jsToLower_spec c with h' | h'
  · rw [h']
    exact h
  · exact h'.2.2.2.2.2.2.2.2

theorem dropWhile_head_false (p : Char → Bool) :
    ∀ (l : List Char) (d : Char), (l.dropWhile p).head? = some d → p d = false := by
  intro l
  induction l with
  | nil => intro d hd; simp at hd
  | cons a cs ih =>
    intro d hd
    rw [List.dropWhile_cons] at hd
    by_cases hp : p a = true
    · rw [if_pos (by simp [hp])] at hd
      exact ih d hd
    · rw [if_neg (by simp [hp])] at hd
      injection hd with h
      rw [← h]
      simpa using hp

theorem nws_dropWhile_eq (cs : List Char)
    (h : ∀ d, cs.head? = some d → isWsChar d = false) :
    cs.dropWhile isWsChar = cs := by
  cases cs with
  | nil => rfl
  | cons b bs => rw [List.dropWhile_cons, if_neg (by simp [h b rfl])]

theorem nws_takeWhile_nil (cs : List Char)
    (h : ∀ d, cs.head? = some d → isWsChar d = false) :
    cs.takeWhile isWsChar = [] := by
  cases cs with
  | nil => rfl
  | cons b bs => rw [List.takeWhile_cons, if_neg (by simp [h b rfl])]

theorem noWsPair_head (a : Char) (cs : List Char) (h : noWsPair (a :: cs))
    (ha : isWsChar a = true) :
    ∀ d, cs.head? = some d → isWsChar d = false := by
  intro d hd
  have hrel := (List.chain'_cons'.mp h).1 d (by simp [hd])
  by_cases hw : isWsChar d = true
  · exact absurd ⟨ha, hw⟩ hrel
  · simpa using hw

theorem mem_jsTrimL (l : List Char) (c : Char) (h : c ∈ jsTrimL l) : c ∈ l := by
  unfold jsTrimL dropWs at h
  rw [List.mem_reverse] at h
  have h1 := (List.dropWhile_suffix isWsChar).sublist.subset h
  rw [List.mem_reverse] at h1
  exact (List.dropWhile_suffix isWsChar).sublist.subset h1

theorem edgeOk_jsTrimL (l : List Char) : edgeOk (jsTrimL l) := by
  unfold jsTrimL dropWs
  constructor
  · intro c hc
    rw [List.head?_reverse] at hc
    obtain ⟨t, ht⟩ := List.dropWhile_suffix
      (l := (l.dropWhile isWsChar).reverse) isWsChar
    have h2 : ((l.dropWhile isWsChar).reverse).getLast? = some c := by
      rw [← ht, List.getLast?_append, hc]
      rfl
    rw [List.getLast?_reverse] at h2
    exact dropWhile_head_false isWsChar l c h2
  · intro c hc
    rw [List.getLast?_reverse] at hc
    exact dropWhile_head_false isWsChar _ c hc

theorem head_collapseWsF (fuel : Nat) (l : List Char)
    (h : ∀ d, l.head? = some d → isWsChar d = false) :
    (collapseWsF fuel l).head? = l.head? := by
  cases l with
  | nil => cases fuel <;> rfl
  | cons a cs =>
    cases fuel with
    | zero => rfl
    | succ fuel =>
      simp only [collapseWsF]
      rw [if_neg (show ¬ isWsChar a = true by simp [h a rfl])]
      rfl

theorem head_loneDotF (fuel : Nat) (l : List Char)
    (h : ∀ d, l.head? = some d → isWsChar d = false) :
    (loneDotF fuel l).head? = l.head? := by
  cases l with
  | nil => cases fuel <;> rfl
  | cons a cs =>
    cases fuel with
    | zero => rfl
    | succ fuel =>
      simp only [loneDotF]
      rw [if_neg (show ¬ isWsChar a = true by simp [h a rfl])]
      rfl

theorem head_symbolSpaceF (fuel : Nat) (l : List Char)
    (h : ∀ d, l.head? = some d → isWsChar d = false) :
    (symbolSpaceF fuel l).head? = l.head? := by
  cases l with
  | nil => cases fuel <;> rfl
  | cons a cs =>
    cases fuel with
    | zero => rfl
    | succ fuel =>
      simp only [symbolSpaceF]
      rw [if_neg (show ¬ isWsChar a = true by simp [h a rfl])]
      by_cases hsym : isSymChar a = true
      · rw [if_pos hsym]
        rfl
      · rw [if_neg hsym]
        rfl

theorem collapseWsF_id : ∀ (fuel : Nat) (l : List Char), wsSingle l →
    noWsPair l → collapseWsF fuel l = l := by
  intro fuel
  induction fuel with
  | zero => intro l _ _; cases l <;> rfl
  | succ fuel ih =>
    intro l hws hnp
    cases l with
    | nil => rfl
    | cons a cs =>
      by_cases ha : isWsChar a = true
      · have hdrop : cs.dropWhile isWsChar = cs :=
          nws_dropWhile_eq cs (noWsPair_head a cs hnp ha)
        simp only [collapseWsF]
        rw [if_pos ha, hdrop,
          ih cs (fun c hc hw => hws c (List.mem_cons_of_mem a hc) hw)
            (List.Chain'.tail hnp),
          hws a (List.mem_cons_self a cs) ha]
      · simp only [collapseWsF]
        rw [if_neg ha,
          ih cs (fun c hc hw => hws c (List.mem_cons_of_mem a hc) hw)
            (List.Chain'.tail hnp)]

theorem remEmptyParensF_id : ∀ (fuel : Nat) (l : List Char), '(' ∉ l →
    remEmptyParensF fuel l = l := by
  intro fuel
  induction fuel with
  | zero => intro l _; cases l <;> rfl
  | succ fuel ih =>
    intro l hl
    cases l with
    | nil => rfl
    | cons a cs =>
      have ha : ¬ a = '(' := fun h => hl (h ▸ List.mem_cons_self a cs)
      simp only [remEmptyParensF]
      rw [if_neg ha, ih cs (fun h => hl (List.mem_cons_of_mem a h))]

theorem remEmptyBracketsF_id : ∀ (fuel : Nat) (l : List Char), '[' ∉ l →
    remEmptyBracketsF fuel l = l := by
  intro fuel
  induction fuel with
  | zero => intro l _; cases l <;> rfl
  | succ fuel ih =>
    intro l hl
    cases l with
    | nil => rfl
    | cons a cs =>
      have ha : ¬ a = '[' := fun h => hl (h ▸ List.mem_cons_self a cs)
      simp only [remEmptyBracketsF]
      rw [if_neg ha, ih cs (fun h => hl (List.mem_cons_of_mem a h))]

theorem loneDotF_id : ∀ (fuel : Nat) (l : List Char), symShape l →
    loneDotF fuel l = l := by
  intro fuel
  induction fuel with
  | zero => intro l _; cases l <;> rfl
  | succ fuel ih =>
    intro l hs
    cases l with
    | nil => rfl
    | cons a cs =>
      by_cases ha : isWsChar a = true
      · have hhd : ∀ d, cs.head? = some d → isWsChar d = false := by
          intro d hd
          have hrel := (List.chain'_cons'.mp hs).1 d (by simp [hd])
          by_cases hw : isWsChar d = true
          · exact absurd ⟨ha, hw⟩ hrel.1
          · simpa using hw
        have hdrop : cs.dropWhile isWsChar = cs := nws_dropWhile_eq cs hhd
        have htake : cs.takeWhile isWsChar = [] := nws_takeWhile_nil cs hhd
        simp only [loneDotF]
        rw [if_pos ha, hdrop, htake]
        split
        · exfalso
          have hrel := (List.chain'_cons.mp hs).1
          exact hrel.2.1 ⟨ha, by decide⟩
        · rw [List.nil_append, ih cs (List.Chain'.tail hs)]
      · simp only [loneDotF]
        rw [if_neg ha, ih cs (List.Chain'.tail hs)]

theorem symbolSpaceF_id : ∀ (fuel : Nat) (l : List Char), symShape l →
    symbolSpaceF fuel l = l := by
  intro fuel
  induction fuel with
  | zero => intro l _; cases l <;> rfl
  | succ fuel ih =>
    intro l hs
    cases l with
    | nil => rfl
    | cons a cs =>
      by_cases ha : isWsChar a = true
      · have hhd : ∀ d, cs.head? = some d → isWsChar d = false := by
          intro d hd
          have hrel := (List.chain'_cons'.mp hs).1 d (by simp [hd])
          by_cases hw : isWsChar d = true
          · exact absurd ⟨ha, hw⟩ hrel.1
          · simpa using hw
        have hdrop : cs.dropWhile isWsChar = cs := nws_dropWhile_eq cs hhd
        have htake : cs.takeWhile isWsChar = [] := nws_takeWhile_nil cs hhd
        simp only [symbolSpaceF]
        rw [if_pos ha, hdrop, htake]
        split
        · rename_i d rest
          have hrel := (List.chain'_cons.mp hs).1
          have hd : ¬ isSymChar d = true := fun h => hrel.2.1 ⟨ha, h⟩
          rw [if_neg hd, List.nil_append, ih (d :: rest) (List.Chain'.tail hs)]
        · rfl
      · by_cases hsym : isSymChar a = true
        · have hhd : ∀ d, cs.head? = some d → isWsChar d = false := by
            intro d hd
            have hrel := (List.chain'_cons'.mp hs).1 d (by simp [hd])
            by_cases hw : isWsChar d = true
            · exact absurd ⟨hsym, hw⟩ hrel.2.2
            · simpa using hw
          have hdrop : cs.dropWhile isWsChar = cs := nws_dropWhile_eq cs hhd
          simp only [symbolSpaceF]
          rw [if_neg ha, if_pos hsym, hdrop, ih cs (List.Chain'.tail hs)]
        · simp only [symbolSpaceF]
          rw [if_neg ha, if_neg hsym, ih cs (List.Chain'.tail hs)]

theorem jsTrimL_id (l : List Char) (h : edgeOk l) : jsTrimL l = l := by
  unfold jsTrimL dropWs
  have h1 : l.dropWhile isWsChar = l := nws_dropWhile_eq l (fun d hd => h.1 d hd)
  rw [h1]
  have h2 : l.reverse.dropWhile isWsChar = l.reverse := by
    refine nws_dropWhile_eq l.reverse (fun d hd => ?_)
    rw [List.head?_reverse] at hd
    exact h.2 d hd
  rw [h2, List.reverse_reverse]

theorem stripNonKept_id (l : List Char)
    (h : ∀ c ∈ l, isKeptChar c = true) : stripNonKept l = l := by
  unfold stripNonKept
  rw [List.filter_eq_self]
  exact h

theorem mem_collapseWsF : ∀ (fuel : Nat) (l : List Char), l.length ≤ fuel →
    ∀ c ∈ collapseWsF fuel l, c = ' ' ∨ (c ∈ l ∧ isWsChar c = false) := by
  intro fuel
  induction fuel with
  | zero =>
    intro l hl c hc
    have hnil : l = [] := List.eq_nil_of_length_eq_zero (Nat.le_zero.mp hl)
    subst hnil
    simp [collapseWsF] at hc
  | succ fuel ih =>
    intro l hl c hc
    cases l with
    | nil => simp [collapseWsF] at hc
    | cons a cs =>
      have hcs : cs.length ≤ fuel := by
        rw [List.length_cons] at hl
        omega
      simp only [collapseWsF] at hc
      by_cases ha : isWsChar a = true
      · rw [if_pos ha] at hc
        rcases List.mem_cons.mp hc with h | h
        · exact Or.inl h
        · rcases ih _ (le_trans
              (List.dropWhile_suffix isWsChar).sublist.length_le hcs) c h with
            h' | ⟨hm, hw⟩
          · exact Or.inl h'
          · exact Or.inr ⟨List.mem_cons_of_mem a
              ((List.dropWhile_suffix isWsChar).sublist.subset hm), hw⟩
      · rw [if_neg ha] at hc
        rcases List.mem_cons.mp hc with h | h
        · subst h
          exact Or.inr ⟨List.mem_cons_self _ _, by simpa using ha⟩
        · rcases ih cs hcs c h with h' | ⟨hm, hw⟩
          · exact Or.inl h'
          · exact Or.inr ⟨List.mem_cons_of_mem a hm, hw⟩

theorem mem_loneDotF : ∀ (fuel : Nat) (l : List Char),
    ∀ c ∈ loneDotF fuel l, c = ' ' ∨ c ∈ l := by
  intro fuel
  induction fuel with
  | zero =>
    intro l c hc
    cases l with
    | nil => simp [loneDotF] at hc
    | cons a cs => exact Or.inr (by simpa [loneDotF] using hc)
  | succ fuel ih =>
    intro l c hc
    cases l with
    | nil => simp [loneDotF] at hc
    | cons a cs =>
      simp only [loneDotF] at hc
      by_cases ha : isWsChar a = true
      · rw [if_pos ha] at hc
        split at hc
        · rename_i d rest2 heq
          by_cases hd : isWsChar d = true
          · rw [if_pos hd] at hc
            rcases List.mem_cons.mp hc with h | h
            · exact Or.inl h
            · rcases ih _ c h with h' | hm
              · exact Or.inl h'
              · have h1 : c ∈ d :: rest2 :=
                  (List.dropWhile_suffix isWsChar).sublist.subset hm
                have h2 : c ∈ cs.dropWhile isWsChar := by
                  rw [heq]
                  exact List.mem_cons_of_mem _ h1
                exact Or.inr (List.mem_cons_of_mem a
                  ((List.dropWhile_suffix isWsChar).sublist.subset h2))
          · rw [if_neg hd] at hc
            rcases List.mem_cons.mp hc with h | h
            · subst h
              exact Or.inr (List.mem_cons_self _ _)
            · rcases List.mem_append.mp h with h1 | h1
              · exact Or.inr (List.mem_cons_of_mem a
                  ((List.takeWhile_prefix isWsChar).sublist.subset h1))
              · rcases ih _ c h1 with h' | hm
                · exact Or.inl h'
                · exact Or.inr (List.mem_cons_of_mem a
                    ((List.dropWhile_suffix isWsChar).sublist.subset hm))
        · rcases List.mem_cons.mp hc with h | h
          · subst h
            exact Or.inr (List.mem_cons_self _ _)
          · rcases List.mem_append.mp h with h1 | h1
            · exact Or.inr (List.mem_cons_of_mem a
                ((List.takeWhile_prefix isWsChar).sublist.subset h1))
            · rcases ih _ c h1 with h' | hm
              · exact Or.inl h'
              · exact Or.inr (List.mem_cons_of_mem a
                  ((List.dropWhile_suffix isWsChar).sublist.subset hm))
      · rw [if_neg ha] at hc
        rcases List.mem_cons.mp hc with h | h
        · subst h
          exact Or.inr (List.mem_cons_self _ _)
        · rcases ih cs c h with h' | hm
          · exact Or.inl h'
          · exact Or.inr (List.mem_cons_of_mem a hm)

theorem mem_symbolSpaceF : ∀ (fuel : Nat) (l : List Char),
    ∀ c ∈ symbolSpaceF fuel l, c = ' ' ∨ c ∈ l := by
  intro fuel
  induction fuel with
  | zero =>
    intro l c hc
    cases l with
    | nil => simp [symbolSpaceF] at hc
    | cons a cs => exact Or.inr (by simpa [symbolSpaceF] using hc)
  | succ fuel ih =>
    intro l c hc
    cases l with
    | nil => simp [symbolSpaceF] at hc
    | cons a cs =>
      simp only [symbolSpaceF] at hc
      by_cases ha : isWsChar a = true
      · rw [if_pos ha] at hc
        split at hc
        · rename_i d rest heq
          by_cases hsym : isSymChar d = true
          · rw [if_pos hsym] at hc
            rcases List.mem_cons.mp hc with h | h
            · subst h
              have h1 : c ∈ cs.dropWhile isWsChar := by
                rw [heq]
                exact List.mem_cons_self _ _
              exact Or.inr (List.mem_cons_of_mem a
                ((List.dropWhile_suffix isWsChar).sublist.subset h1))
            · rcases ih _ c h with h' | hm
              · exact Or.inl h'
              · have h1 : c ∈ d :: rest := List.mem_cons_of_mem d
                  ((List.dropWhile_suffix isWsChar).sublist.subset hm)
                have h2 : c ∈ cs.dropWhile isWsChar := by
                  rw [heq]
                  exact h1
                exact Or.inr (List.mem_cons_of_mem a
                  ((List.dropWhile_suffix isWsChar).sublist.subset h2))
          · rw [if_neg hsym] at hc
            rcases List.mem_cons.mp hc with h | h
            · subst h
              exact Or.inr (List.mem_cons_self _ _)
            · rcases List.mem_append.mp h with h1 | h1
              · exact Or.inr (List.mem_cons_of_mem a
                  ((List.takeWhile_prefix isWsChar).sublist.subset h1))
              · rcases ih _ c h1 with h' | hm
                · exact Or.inl h'
                · exact Or.inr (List.mem_cons_of_mem a
                    ((List.dropWhile_suffix isWsChar).sublist.subset hm))
        · rcases List.mem_cons.mp hc with h | h
          · subst h
            exact Or.inr (List.mem_cons_self _ _)
          · exact Or.inr (List.mem_cons_of_mem a
              ((List.takeWhile_prefix isWsChar).sublist.subset h))
      · rw [if_neg ha] at hc
        by_cases hsym : isSymChar a = true
        · rw [if_pos hsym] at hc
          rcases List.mem_cons.mp hc with h | h
          · subst h
            exact Or.inr (List.mem_cons_self _ _)
          · rcases ih _ c h with h' | hm
            · exact Or.inl h'
            · exact Or.inr (List.mem_cons_of_mem a
                ((List.dropWhile_suffix isWsChar).sublist.subset hm))
        · rw [if_neg hsym] at hc
          rcases List.mem_cons.mp hc with h | h
          · subst h
            exact Or.inr (List.mem_cons_self _ _)
          · rcases ih cs c h with h' | hm
            · exact Or.inl h'
            · exact Or.inr (List.mem_cons_of_mem a hm)

theorem symRel_symm : ∀ a b : Char,
    (¬(isWsChar a = true ∧ isWsChar b = true) ∧
     ¬(isWsChar a = true ∧ isSymChar b = true) ∧
     ¬(isSymChar a = true ∧ isWsChar b = true)) →
    (¬(isWsChar b = true ∧ isWsChar a = true) ∧
     ¬(isWsChar b = true ∧ isSymChar a = true) ∧
     ¬(isSymChar b = true ∧ isWsChar a = true)) :=
  fun _ _ h =>
    ⟨fun hc => h.1 ⟨hc.2, hc.1⟩, fun hc => h.2.2 ⟨hc.2, hc.1⟩,
     fun hc => h.2.1 ⟨hc.2, hc.1⟩⟩

theorem noWsPair_of_symShape (l : List Char) (h : symShape l) : noWsPair l :=
  List.Chain'.imp (fun _ _ hr => hr.1) h

theorem noWsPair_collapseWsF : ∀ (fuel : Nat) (l : List Char),
    l.length ≤ fuel → noWsPair (collapseWsF fuel l) := by
  intro fuel
  induction fuel with
  | zero =>
    intro l hl
    have hnil : l = [] := List.eq_nil_of_length_eq_zero (Nat.le_zero.mp hl)
    subst hnil
    exact List.chain'_nil
  | succ fuel ih =>
    intro l hl
    cases l with
    | nil => exact List.chain'_nil
    | cons a cs =>
      have hcs : cs.length ≤ fuel := by
        rw [List.length_cons] at hl
        omega
      by_cases ha : isWsChar a = true
      · simp only [collapseWsF]
        rw [if_pos ha]
        refine List.chain'_cons'.mpr ⟨?_, ih _ (le_trans
          (List.dropWhile_suffix isWsChar).sublist.length_le hcs)⟩
        intro b hb
        have hh := head_collapseWsF fuel (cs.dropWhile isWsChar)
          (fun d hd => dropWhile_head_false isWsChar cs d hd)
        have hb' : (cs.dropWhile isWsChar).head? = some b := by
          rw [← hh]
          exact Option.mem_def.mp hb
        have hwb := dropWhile_head_false isWsChar cs b hb'
        exact fun hcon => by simp [hwb] at hcon
      · simp only [collapseWsF]
        rw [if_neg ha]
        refine List.chain'_cons'.mpr ⟨?_, ih cs hcs⟩
        intro b _
        exact fun hcon => ha hcon.1

theorem noWsPair_loneDotF : ∀ (fuel : Nat) (l : List Char), noWsPair l →
    noWsPair (loneDotF fuel l) := by
  intro fuel
  induction fuel with
  | zero =>
    intro l h
    cases l with
    | nil => exact List.chain'_nil
    | cons a cs => exact h
  | succ fuel ih =>
    intro l h
    cases l with
    | nil => exact List.chain'_nil
    | cons a cs =>
      by_cases ha : isWsChar a = true
      · have hhd := noWsPair_head a cs h ha
        have hdrop : cs.dropWhile isWsChar = cs := nws_dropWhile_eq cs hhd
        have htake : cs.takeWhile isWsChar = [] := nws_takeWhile_nil cs hhd
        simp only [loneDotF]
        rw [if_pos ha, hdrop, htake]
        split
        · rename_i d rest2
          by_cases hd : isWsChar d = true
          · rw [if_pos hd]
            refine List.chain'_cons'.mpr ⟨?_, ih _ ?_⟩
            · intro b hb
              have hh := head_loneDotF fuel ((d :: rest2).dropWhile isWsChar)
                (fun e he => dropWhile_head_false isWsChar _ e he)
              have hb' : ((d :: rest2).dropWhile isWsChar).head? = some b := by
                rw [← hh]
                exact Option.mem_def.mp hb
              have hwb := dropWhile_head_false isWsChar _ b hb'
              exact fun hcon => by simp [hwb] at hcon
            · exact List.Chain'.suffix
                (List.Chain'.tail (List.Chain'.tail h))
                (List.dropWhile_suffix isWsChar)
          · rw [if_neg hd, List.nil_append]
            refine List.chain'_cons'.mpr ⟨?_, ih _ (List.Chain'.tail h)⟩
            intro b hb
            have hh := head_loneDotF fuel _ hhd
            have hb' := hhd b (by rw [← hh]; exact Option.mem_def.mp hb)
            exact fun hcon => by simp [hb'] at hcon
        · rw [List.nil_append]
          refine List.chain'_cons'.mpr ⟨?_, ih cs (List.Chain'.tail h)⟩
          intro b hb
          have hh := head_loneDotF fuel cs hhd
          have hb' := hhd b (by rw [← hh]; exact Option.mem_def.mp hb)
          exact fun hcon => by simp [hb'] at hcon
      · simp only [loneDotF]
        rw [if_neg ha]
        refine List.chain'_cons'.mpr ⟨?_, ih cs (List.Chain'.tail h)⟩
        intro b _
        exact fun hcon => ha hcon.1

theorem symShape_symbolSpaceF : ∀ (fuel : Nat) (l : List Char), noWsPair l →
    l.length ≤ fuel → symShape (symbolSpaceF fuel l) := by
  intro fuel
  induction fuel with
  | zero =>
    intro l _ hl
    have hnil : l = [] := List.eq_nil_of_length_eq_zero (Nat.le_zero.mp hl)
    subst hnil
    exact List.chain'_nil
  | succ fuel ih =>
    intro l h hl
    cases l with
    | nil => exact List.chain'_nil
    | cons a cs =>
      have hcs : cs.length ≤ fuel := by
        rw [List.length_cons] at hl
        omega
      by_cases ha : isWsChar a = true
      · have hhd := noWsPair_head a cs h ha
        have hdrop := nws_dropWhile_eq cs hhd
        have htake := nws_takeWhile_nil cs hhd
        simp only [symbolSpaceF]
        rw [if_pos ha, hdrop, htake]
        split
        · rename_i d rest
          have hd : isWsChar d = false := hhd d rfl
          by_cases hsym : isSymChar d = true
          · rw [if_pos hsym]
            refine List.chain'_cons'.mpr ⟨?_, ih _ ?_ ?_⟩
            · intro b hb
              have hh := head_symbolSpaceF fuel (rest.dropWhile isWsChar)
                (fun e he => dropWhile_head_false isWsChar rest e he)
              have hb' : (rest.dropWhile isWsChar).head? = some b := by
                rw [← hh]
                exact Option.mem_def.mp hb
              have hwb := dropWhile_head_false isWsChar rest b hb'
              exact ⟨fun hcon => by simp [hd] at hcon,
                fun hcon => by simp [hd] at hcon,
                fun hcon => by simp [hwb] at hcon⟩
            · exact List.Chain'.suffix (List.Chain'.tail h)
                ((List.dropWhile_suffix isWsChar).trans (List.suffix_cons d rest))
            · refine le_trans
                (List.dropWhile_suffix isWsChar).sublist.length_le ?_
              rw [List.length_cons] at hcs
              omega
          · rw [if_neg hsym, List.nil_append]
            refine List.chain'_cons'.mpr ⟨?_, ih _ (List.Chain'.tail h) hcs⟩
            intro b hb
            have hh := head_symbolSpaceF fuel (d :: rest) hhd
            have hb' : (d :: rest).head? = some b := by
              rw [← hh]
              exact Option.mem_def.mp hb
            have hbd : b = d := by
              injection hb' with h'
              exact h'.symm
            subst hbd
            exact ⟨fun hcon => by simp [hd] at hcon,
              fun hcon => hsym hcon.2,
              fun hcon => by simp [hd] at hcon⟩
        · exact List.chain'_singleton a
      · by_cases hsym : isSymChar a = true
        · simp only [symbolSpaceF]
          rw [if_neg ha, if_pos hsym]
          refine List.chain'_cons'.mpr ⟨?_,
            ih _ (List.Chain'.suffix (List.Chain'.tail h)
              (List.dropWhile_suffix isWsChar))
              (le_trans (List.dropWhile_suffix isWsChar).sublist.length_le hcs)⟩
          intro b hb
          have hh := head_symbolSpaceF fuel (cs.dropWhile isWsChar)
            (fun e he => dropWhile_head_false isWsChar cs e he)
          have hb' : (cs.dropWhile isWsChar).head? = some b := by
            rw [← hh]
            exact Option.mem_def.mp hb
          have hwb := dropWhile_head_false isWsChar cs b hb'
          exact ⟨fun hcon => ha hcon.1, fun hcon => ha hcon.1,
            fun hcon => by simp [hwb] at hcon⟩
        · simp only [symbolSpaceF]
          rw [if_neg ha, if_neg hsym]
          refine List.chain'_cons'.mpr ⟨?_, ih cs (List.Chain'.tail h) hcs⟩
          intro b _
          exact ⟨fun hcon => ha hcon.1, fun hcon => ha hcon.1,
            fun hcon => hsym hcon.1⟩

theorem symShape_jsTrimL (l : List Char) (h : symShape l) :
    symShape (jsTrimL l) := by
  unfold jsTrimL dropWs
  have h1 : symShape (l.dropWhile isWsChar) :=
    List.Chain'.suffix h (List.dropWhile_suffix isWsChar)
  have h2 : symShape ((l.dropWhile isWsChar).reverse) :=
    List.chain'_reverse.mpr (List.Chain'.imp symRel_symm h1)
  have h3 : symShape (((l.dropWhile isWsChar).reverse).dropWhile isWsChar) :=
    List.Chain'.suffix h2 (List.dropWhile_suffix isWsChar)
  exact List.chain'_reverse.mpr (List.Chain'.imp symRel_symm h3)

theorem basicPipeline_props (l : List Char)
    (hkept : ∀ c ∈ l, isKeptChar c = true)
    (hparen : '(' ∉ l) (hbrak : '[' ∉ l) :
    symShape (basicPipeline l) ∧ edgeOk (basicPipeline l) ∧
    wsSingle (basicPipeline l) ∧ ('(' ∉ basicPipeline l) ∧
    ('[' ∉ basicPipeline l) ∧
    (∀ c ∈ basicPipeline l, isKeptChar c = true) ∧
    (∀ c ∈ basicPipeline l, c = ' ' ∨ c ∈ l) := by
  have hX₁mem : ∀ c ∈ collapseWs l, c = ' ' ∨ (c ∈ l ∧ isWsChar c = false) :=
    mem_collapseWsF l.length l le_rfl
  have hX₁np : noWsPair (collapseWs l) := noWsPair_collapseWsF l.length l le_rfl
  have hX₁paren : '(' ∉ collapseWs l := by
    intro hm
    rcases hX₁mem _ hm with h | h
    · exact absurd h (by decide)
    · exact hparen h.1
  have hX₁brak : '[' ∉ collapseWs l := by
    intro hm
    rcases hX₁mem _ hm with h | h
    · exact absurd h (by decide)
    · exact hbrak h.1
  have e2 : remEmptyParens (collapseWs l) = collapseWs l :=
    remEmptyParensF_id _ _ hX₁paren
  have e3 : remEmptyBrackets (collapseWs l) = collapseWs l :=
    remEmptyBracketsF_id _ _ hX₁brak
  have hX₄np : noWsPair (loneDot (collapseWs l)) :=
    noWsPair_loneDotF _ _ hX₁np
  have hX₄mem : ∀ c ∈ loneDot (collapseWs l), c = ' ' ∨ c ∈ collapseWs l :=
    mem_loneDotF _ _
  have hX₅shape : symShape (symbolSpace (loneDot (collapseWs l))) :=
    symShape_symbolSpaceF _ _ hX₄np le_rfl
  have hX₅mem : ∀ c ∈ symbolSpace (loneDot (collapseWs l)),
      c = ' ' ∨ c ∈ loneDot (collapseWs l) := mem_symbolSpaceF _ _
  have hmem₅ : ∀ c ∈ symbolSpace (loneDot (collapseWs l)),
      c = ' ' ∨ (c ∈ l ∧ isWsChar c = false) := by
    intro c hc
    rcases hX₅mem c hc with h | h
    · exact Or.inl h
    · rcases hX₄mem c h with h' | h'
      · exact Or.inl h'
      · exact hX₁mem c h'
  have e6 : collapseWs (symbolSpace (loneDot (collapseWs l))) =
      symbolSpace (loneDot (collapseWs l)) := by
    refine collapseWsF_id _ _ ?_ (noWsPair_of_symShape _ hX₅shape)
    intro c hc hw
    rcases hmem₅ c hc with h | h
    · exact h
    · exact absurd hw (by simp [h.2])
  have hmemR : ∀ c ∈ jsTrimL (symbolSpace (loneDot (collapseWs l))),
      c = ' ' ∨ (c ∈ l ∧ isWsChar c = false) :=
    fun c hc => hmem₅ c (mem_jsTrimL _ c hc)
  have hkeptR : ∀ c ∈ jsTrimL (symbolSpace (loneDot (collapseWs l))),
      isKeptChar c = true := by
    intro c hc
    rcases hmemR c hc with h | h
    · rw [h]
      decide
    · exact hkept c h.1
  have e8 : stripNonKept (jsTrimL (symbolSpace (loneDot (collapseWs l)))) =
      jsTrimL (symbolSpace (loneDot (collapseWs l))) :=
    stripNonKept_id _ hkeptR
  have hpipe : basicPipeline l =
      jsTrimL (symbolSpace (loneDot (collapseWs l))) := by
    unfold basicPipeline
    rw [e2, e3, e6, e8]
  rw [hpipe]
  refine ⟨symShape_jsTrimL _ hX₅shape, edgeOk_jsTrimL _, ?_, ?_, ?_, hkeptR,
    fun c hc => (hmemR c hc).imp id (fun h => h.1)⟩
  · intro c hc hw
    rcases hmemR c hc with h | h
    · exact h
    · exact absurd hw (by simp [h.2])
  · intro hm
    rcases hmemR _ hm with h | h
    · exact absurd h (by decide)
    · exact hparen h.1
  · intro hm
    rcases hmemR _ hm with h | h
    · exact absurd h (by decide)
    · exact hbrak h.1

theorem basicPipeline_id (r : List Char) (hsym : symShape r) (hedge : edgeOk r)
    (hws : wsSingle r) (hparen : '(' ∉ r) (hbrak : '[' ∉ r)
    (hkept : ∀ c ∈ r, isKeptChar c = true) :
    basicPipeline r = r := by
  have hnp : noWsPair r := noWsPair_of_symShape r hsym
  have h1 : collapseWs r = r := collapseWsF_id r.length r hws hnp
  have h2 : remEmptyParens r = r := remEmptyParensF_id r.length r hparen
  have h3 : remEmptyBrackets r = r := remEmptyBracketsF_id r.length r hbrak
  have h4 : loneDot r = r := loneDotF_id r.length r hsym
  have h5 : symbolSpace r = r := symbolSpaceF_id r.length r hsym
  have h6 : jsTrimL r = r := jsTrimL_id r hedge
  have h7 : stripNonKept r = r := stripNonKept_id r hkept
  unfold basicPipeline
  rw [h1, h2, h3, h4, h5, h1, h6, h7]

theorem findIdx_getD_false {α : Type} (p : α → Bool) (d : α) :
    ∀ (l : List α) (i : Nat), i < l.findIdx p → p (l.getD i d) = false := by
  intro l
  induction l with
  | nil => intro i hi; simp [List.findIdx_nil] at hi
  | cons a as ih =>
    intro i hi
    rw [List.findIdx_cons] at hi
    by_cases hp : p a = true
    · rw [hp] at hi
      simp at hi
    · rw [Bool.not_eq_true] at hp
      rw [hp] at hi
      simp only [cond_false] at hi
      cases i with
      | zero => exact hp
      | succ j => exact ih j (by omega)

theorem findIdx_getD_true {α : Type} (p : α → Bool) (d : α) :
    ∀ (l : List α), l.findIdx p < l.length →
      p (l.getD (l.findIdx p) d) = true := by
  intro l
  induction l with
  | nil => intro h; simp at h
  | cons a as ih =>
    intro h
    rw [List.findIdx_cons] at h ⊢
    by_cases hp : p a = true
    · rw [hp] at h ⊢
      exact hp
    · rw [Bool.not_eq_true] at hp
      rw [hp] at h ⊢
      simp only [cond_false] at h ⊢
      rw [List.length_cons] at h
      exact ih (by omega)

theorem getD_mem_or {α : Type} :
    ∀ (l : List α) (i : Nat) (d : α), l.getD i d = d ∨ l.getD i d ∈ l := by
  intro l
  induction l with
  | nil => intro i d; exact Or.inl rfl
  | cons a as ih =>
    intro i d
    cases i with
    | zero => exact Or.inr (List.mem_cons_self _ _)
    | succ j =>
      rcases ih j d with h | h
      · exact Or.inl h
      · exact Or.inr (List.mem_cons_of_mem a h)

theorem chain_rel_all {α : Type} {R : α → α → Prop}
    (htr : ∀ a b c, R a b → R b c → R a c) :
    ∀ (l : List α) (a : α), List.Chain R a l → ∀ b ∈ l, R a b := by
  intro l
  induction l with
  | nil => intro a _ b hb; exact absurd hb (List.not_mem_nil b)
  | cons c cs ih =>
    intro a hch b hb
    rw [List.chain_cons] at hch
    rcases List.mem_cons.mp hb with h | h
    · exact h ▸ hch.1
    · exact htr a c b hch.1 (ih c hch.2 b h)

theorem pairwise_of_chain {α : Type} {R : α → α → Prop}
    (htr : ∀ a b c, R a b → R b c → R a c) :
    ∀ l : List α, List.Chain' R l → l.Pairwise R := by
  intro l
  induction l with
  | nil => intro _; exact List.Pairwise.nil
  | cons a cs ih =>
    intro h
    have hch : List.Chain R a cs := h
    refine List.pairwise_cons.mpr ⟨chain_rel_all htr cs a hch, ih ?_⟩
    cases cs with
    | nil => exact List.chain'_nil
    | cons c cs' => exact (List.chain_cons.mp hch).2

theorem jsSortInsert_eq_take_drop {α : Type} (cmp : α → α → Int) (x : α) :
    ∀ acc : List α,
      jsSortInsert cmp x acc =
        acc.take (acc.findIdx (fun y => decide (cmp x y < 0))) ++
          x :: acc.drop (acc.findIdx (fun y => decide (cmp x y < 0))) := by
  intro acc
  induction acc with
  | nil => rfl
  | cons y ys ih =>
    rw [List.findIdx_cons]
    by_cases hc : cmp x y < 0
    · rw [show (decide (cmp x y < 0)) = true by simpa using hc]
      simp only [cond_true, List.take_zero, List.drop_zero, List.nil_append]
      rw [jsSortInsert, if_pos hc]
    · rw [show (decide (cmp x y < 0)) = false by simpa using hc]
      simp only [cond_false]
      rw [jsSortInsert, if_neg hc, ih]
      rfl

theorem jsSortInsert_append_of_ge {α : Type} (cmp : α → α → Int) (x : α) :
    ∀ acc : List α, (∀ y ∈ acc, ¬ cmp x y < 0) →
      jsSortInsert cmp x acc = acc ++ [x] := by
  intro acc
  induction acc with
  | nil => intro _; rfl
  | cons y ys ih =>
    intro h
    rw [jsSortInsert, if_neg (h y (List.mem_cons_self _ _)),
      ih (fun z hz => h z (List.mem_cons_of_mem y hz))]
    rfl

theorem jsSortInsert_pairwise_int {α : Type} (rk : α → Int) (x : α) :
    ∀ l : List α, l.Pairwise (fun p q => rk q ≤ rk p) →
      (jsSortInsert (intKeyCmp rk) x l).Pairwise (fun p q => rk q ≤ rk p) := by
  intro l
  induction l with
  | nil =>
    intro _
    simp [jsSortInsert]
  | cons y ys ih =>
    intro h
    by_cases hc : intKeyCmp rk x y < 0
    · rw [jsSortInsert, if_pos hc]
      have hxy : rk y ≤ rk x := by
        unfold intKeyCmp at hc
        omega
      refine List.pairwise_cons.mpr ⟨?_, h⟩
      intro z hz
      rcases List.mem_cons.mp hz with h' | h'
      · rw [h']
        exact hxy
      · have := (List.pairwise_cons.mp h).1 z h'
        omega
    · rw [jsSortInsert, if_neg hc]
      have hyx : rk x ≤ rk y := by
        unfold intKeyCmp at hc
        omega
      refine List.pairwise_cons.mpr ⟨?_, ih (List.pairwise_cons.mp h).2⟩
      intro z hz
      rcases (mem_jsSortInsert _ x z ys).mp hz with h' | h'
      · rw [h']
        exact hyx
      · exact (List.pairwise_cons.mp h).1 z h'

theorem v8BinSearchF_eq {α : Type} (cmp : α → α → Int) (x : α) (acc : List α)
    (hmono : ∀ j k : Nat, j ≤ k → k < acc.length →
      decide (cmp x (acc.getD j x) < 0) = true →
      decide (cmp x (acc.getD k x) < 0) = true) :
    ∀ (fuel left right : Nat), right ≤ acc.length →
      left ≤ acc.findIdx (fun y => decide (cmp x y < 0)) →
      acc.findIdx (fun y => decide (cmp x y < 0)) ≤ right →
      right - left ≤ fuel →
      v8BinSearchF cmp x acc fuel left right =
        acc.findIdx (fun y => decide (cmp x y < 0)) := by
  intro fuel
  induction fuel with
  | zero =>
    intro left right _ h2 h3 h4
    show left = _
    omega
  | succ fuel ih =>
    intro left right h1 h2 h3 h4
    rw [v8BinSearchF]
    by_cases hlr : left < right
    · rw [if_pos hlr]
      have hmlt : left + (right - left) / 2 < right := by omega
      by_cases hp : decide (cmp x (acc.getD (left + (right - left) / 2) x) < 0)
        = true
      · rw [if_pos (of_decide_eq_true hp)]
        have hble : acc.findIdx (fun y => decide (cmp x y < 0)) ≤
            left + (right - left) / 2 := by
          by_contra hgt
          rw [findIdx_getD_false (fun y => decide (cmp x y < 0)) x acc
            (left + (right - left) / 2) (by omega)] at hp
          exact Bool.noConfusion hp
        exact ih left (left + (right - left) / 2) (by omega) h2 hble (by omega)
      · rw [if_neg (by simpa using hp)]
        have hbgt : left + (right - left) / 2 + 1 ≤
            acc.findIdx (fun y => decide (cmp x y < 0)) := by
          by_contra hle
          have hblen : acc.findIdx (fun y => decide (cmp x y < 0)) <
              acc.length := by omega
          have htrue := findIdx_getD_true (fun y => decide (cmp x y < 0)) x
            acc hblen
          rw [hmono (acc.findIdx (fun y => decide (cmp x y < 0)))
            (left + (right - left) / 2) (by omega) (by omega) htrue] at hp
          exact hp rfl
        exact ih (left + (right - left) / 2 + 1) right h1 hbgt h3 (by omega)
    · rw [if_neg hlr]
      omega

theorem v8BinInsert_eq_jsSortInsert {α : Type} (rk : α → Int) (acc : List α)
    (x : α) (hpw : acc.Pairwise (fun p q => rk q ≤ rk p)) :
    v8BinInsert (intKeyCmp rk) acc x = jsSortInsert (intKeyCmp rk) x acc := by
  have hmono : ∀ j k : Nat, j ≤ k → k < acc.length →
      decide (intKeyCmp rk x (acc.getD j x) < 0) = true →
      decide (intKeyCmp rk x (acc.getD k x) < 0) = true := by
    intro j k hjk hk hj
    rw [decide_eq_true_iff] at hj ⊢
    by_cases hjk' : j = k
    · subst hjk'
      exact hj
    · have hjlen : j < acc.length := by omega
      have hrel := List.pairwise_iff_getElem.mp hpw j k hjlen hk (by omega)
      rw [List.getD_eq_getElem acc x hjlen] at hj
      rw [List.getD_eq_getElem acc x hk]
      unfold intKeyCmp at hj ⊢
      omega
  have hb : acc.findIdx (fun y => decide (intKeyCmp rk x y < 0)) ≤
      acc.length := List.findIdx_le_length _
  unfold v8BinInsert
  rw [jsSortInsert_eq_take_drop,
    v8BinSearchF_eq (intKeyCmp rk) x acc hmono acc.length 0 acc.length
      le_rfl (Nat.zero_le _) hb (by omega)]

theorem foldl_binInsert_eq {α : Type} (rk : α → Int) :
    ∀ (rest acc : List α), acc.Pairwise (fun p q => rk q ≤ rk p) →
      rest.foldl (v8BinInsert (intKeyCmp rk)) acc =
        rest.foldl (fun a z => jsSortInsert (intKeyCmp rk) z a) acc := by
  intro rest
  induction rest with
  | nil => intro acc _; rfl
  | cons z zs ih =>
    intro acc hpw
    rw [List.foldl_cons, List.foldl_cons,
      v8BinInsert_eq_jsSortInsert rk acc z hpw]
    exact ih _ (jsSortInsert_pairwise_int rk z acc hpw)

theorem v8AscRun_parts {α : Type} (cmp : α → α → Int) :
    ∀ (xs : List α) (prev : α),
      (v8AscRun cmp prev xs).1 ++ (v8AscRun cmp prev xs).2 = xs ∧
      List.Chain (fun p q => ¬ cmp q p < 0) prev (v8AscRun cmp prev xs).1 := by
  intro xs
  induction xs with
  | nil => intro prev; exact ⟨rfl, List.Chain.nil⟩
  | cons z zs ih =>
    intro prev
    by_cases hc : cmp z prev < 0
    · simp only [v8AscRun, if_pos hc]
      exact ⟨rfl, List.Chain.nil⟩
    · simp only [v8AscRun, if_neg hc]
      refine ⟨?_, ?_⟩
      · show z :: (v8AscRun cmp z zs).1 ++ (v8AscRun cmp z zs).2 = z :: zs
        rw [List.cons_append, (ih z).1]
      · show List.Chain _ prev (z :: (v8AscRun cmp z zs).1)
        exact List.Chain.cons hc (ih z).2

theorem v8DescRun_parts {α : Type} (cmp : α → α → Int) :
    ∀ (xs : List α) (prev : α),
      (v8DescRun cmp prev xs).1 ++ (v8DescRun cmp prev xs).2 = xs ∧
      List.Chain (fun p q => cmp q p < 0) prev (v8DescRun cmp prev xs).1 := by
  intro xs
  induction xs with
  | nil => intro prev; exact ⟨rfl, List.Chain.nil⟩
  | cons z zs ih =>
    intro prev
    by_cases hc : cmp z prev < 0
    · simp only [v8DescRun, if_pos hc]
      refine ⟨?_, ?_⟩
      · show z :: (v8DescRun cmp z zs).1 ++ (v8DescRun cmp z zs).2 = z :: zs
        rw [List.cons_append, (ih z).1]
      · show List.Chain _ prev (z :: (v8DescRun cmp z zs).1)
        exact List.Chain.cons hc (ih z).2
    · simp only [v8DescRun, if_neg hc]
      exact ⟨rfl, List.Chain.nil⟩

theorem jsStableSort_sorted_id {α : Type} (rk : α → Int) :
    ∀ (l acc : List α), (acc ++ l).Pairwise (fun p q => rk q ≤ rk p) →
      l.foldl (fun a x => jsSortInsert (intKeyCmp rk) x a) acc = acc ++ l := by
  intro l
  induction l with
  | nil => intro acc _; simp
  | cons z zs ih =>
    intro acc h
    rw [List.foldl_cons]
    have hz : ∀ y ∈ acc, ¬ intKeyCmp rk z y < 0 := by
      intro y hy
      have := (List.pairwise_append.mp h).2.2 y hy z (List.mem_cons_self _ _)
      unfold intKeyCmp
      omega
    rw [jsSortInsert_append_of_ge _ z acc hz]
    have h' : ((acc ++ [z]) ++ zs).Pairwise (fun p q => rk q ≤ rk p) := by
      rw [List.append_assoc, List.singleton_append]
      exact h
    rw [ih (acc ++ [z]) h', List.append_assoc, List.singleton_append]

theorem jsStableSort_desc_rev {α : Type} (cmp : α → α → Int) :
    ∀ (zs : List α) (prev : α) (acc : List α),
      List.Chain (fun p q => cmp q p < 0) prev zs →
      zs.foldl (fun a x => jsSortInsert cmp x a) (prev :: acc) =
        zs.reverse ++ prev :: acc := by
  intro zs
  induction zs with
  | nil => intro prev acc _; rfl
  | cons z zs' ih =>
    intro prev acc hch
    rw [List.chain_cons] at hch
    rw [List.foldl_cons]
    have hstep : jsSortInsert cmp z (prev :: acc) = z :: prev :: acc := by
      rw [jsSortInsert, if_pos hch.1]
    rw [hstep, ih z (prev :: acc) hch.2, List.reverse_cons, List.append_assoc]
    rfl

theorem jsSortInsert_congr {α : Type} (cmp cmp' : α → α → Int) (x : α) :
    ∀ acc : List α, (∀ y ∈ acc, cmp x y = cmp' x y) →
      jsSortInsert cmp x acc = jsSortInsert cmp' x acc := by
  intro acc
  induction acc with
  | nil => intro _; rfl
  | cons y ys ih =>
    intro h
    rw [jsSortInsert, jsSortInsert, h y (List.mem_cons_self _ _),
      ih (fun z hz => h z (List.mem_cons_of_mem y hz))]

theorem jsStableSort_congr {α : Type} (cmp cmp' : α → α → Int) (L : List α)
    (hL : ∀ a ∈ L, ∀ b ∈ L, cmp a b = cmp' a b) :
    jsStableSort cmp L = jsStableSort cmp' L := by
  suffices aux : ∀ (xs acc : List α), (∀ a ∈ xs, a ∈ L) → (∀ a ∈ acc, a ∈ L) →
      xs.foldl (fun a x => jsSortInsert cmp x a) acc =
        xs.foldl (fun a x => jsSortInsert cmp' x a) acc by
    exact aux L [] (fun a ha => ha) (fun a ha => absurd ha (List.not_mem_nil a))
  intro xs
  induction xs with
  | nil => intro acc _ _; rfl
  | cons x xs' ih =>
    intro acc hxs hacc
    rw [List.foldl_cons, List.foldl_cons,
      jsSortInsert_congr cmp cmp' x acc
        (fun y hy => hL x (hxs x (List.mem_cons_self _ _)) y (hacc y hy))]
    refine ih (jsSortInsert cmp' x acc)
      (fun a ha => hxs a (List.mem_cons_of_mem x ha)) ?_
    intro a ha
    rcases (mem_jsSortInsert cmp' x a acc).mp ha with h | h
    · exact h ▸ hxs x (List.mem_cons_self _ _)
    · exact hacc a h

theorem mem_v8BinInsert {α : Type} (cmp : α → α → Int) (acc : List α)
    (x a : α) (h : a ∈ v8BinInsert cmp acc x) : a = x ∨ a ∈ acc := by
  unfold v8BinInsert at h
  rcases List.mem_append.mp h with h | h
  · exact Or.inr (List.take_subset _ _ h)
  · rcases List.mem_cons.mp h with h | h
    · exact Or.inl h
    · exact Or.inr (List.drop_subset _ _ h)

theorem v8AscRun_congr {α : Type} (cmp cmp' : α → α → Int) (L : List α)
    (hL : ∀ a ∈ L, ∀ b ∈ L, cmp a b = cmp' a b) :
    ∀ (xs : List α) (prev : α), prev ∈ L → (∀ a ∈ xs, a ∈ L) →
      v8AscRun cmp prev xs = v8AscRun cmp' prev xs := by
  intro xs
  induction xs with
  | nil => intro prev _ _; rfl
  | cons z zs ih =>
    intro prev hprev hxs
    have hz : z ∈ L := hxs z (List.mem_cons_self _ _)
    have hcc : cmp z prev = cmp' z prev := hL z hz prev hprev
    by_cases hc : cmp z prev < 0
    · simp only [v8AscRun, if_pos hc, if_pos (hcc ▸ hc)]
    · simp only [v8AscRun, if_neg hc, if_neg (hcc ▸ hc)]
      rw [ih z hz (fun a ha => hxs a (List.mem_cons_of_mem z ha))]

theorem v8DescRun_congr {α : Type} (cmp cmp' : α → α → Int) (L : List α)
    (hL : ∀ a ∈ L, ∀ b ∈ L, cmp a b = cmp' a b) :
    ∀ (xs : List α) (prev : α), prev ∈ L → (∀ a ∈ xs, a ∈ L) →
      v8DescRun cmp prev xs = v8DescRun cmp' prev xs := by
  intro xs
  induction xs with
  | nil => intro prev _ _; rfl
  | cons z zs ih =>
    intro prev hprev hxs
    have hz : z ∈ L := hxs z (List.mem_cons_self _ _)
    have hcc : cmp z prev = cmp' z prev := hL z hz prev hprev
    by_cases hc : cmp z prev < 0
    · simp only [v8DescRun, if_pos hc, if_pos (hcc ▸ hc)]
      rw [ih z hz (fun a ha => hxs a (List.mem_cons_of_mem z ha))]
    · simp only [v8DescRun, if_neg hc, if_neg (hcc ▸ hc)]

theorem v8BinSearchF_congr {α : Type} (cmp cmp' : α → α → Int) (L : List α)
    (hL : ∀ a ∈ L, ∀ b ∈ L, cmp a b = cmp' a b) (x : α) (hx : x ∈ L)
    (acc : List α) (hacc : ∀ y ∈ acc, y ∈ L) :
    ∀ (fuel left right : Nat),
      v8BinSearchF cmp x acc fuel left right =
        v8BinSearchF cmp' x acc fuel left right := by
  intro fuel
  induction fuel with
  | zero => intro _ _; rfl
  | succ fuel ih =>
    intro left right
    rw [v8BinSearchF, v8BinSearchF]
    by_cases hlr : left < right
    · rw [if_pos hlr, if_pos hlr]
      have hmem : acc.getD (left + (right - left) / 2) x ∈ L := by
        rcases getD_mem_or acc (left + (right - left) / 2) x with h | h
        · rw [h]
          exact hx
        · exact hacc _ h
      have hcc := hL x hx _ hmem
      by_cases hc : cmp x (acc.getD (left + (right - left) / 2) x) < 0
      · rw [if_pos hc, if_pos (hcc ▸ hc), ih]
      · rw [if_neg hc, if_neg (hcc ▸ hc), ih]
    · rw [if_neg hlr, if_neg hlr]

theorem v8BinInsert_congr {α : Type} (cmp cmp' : α → α → Int) (L : List α)
    (hL : ∀ a ∈ L, ∀ b ∈ L, cmp a b = cmp' a b) (acc : List α)
    (hacc : ∀ y ∈ acc, y ∈ L) (x : α) (hx : x ∈ L) :
    v8BinInsert cmp acc x = v8BinInsert cmp' acc x := by
  unfold v8BinInsert
  rw [v8BinSearchF_congr cmp cmp' L hL x hx acc hacc]

theorem v8MakeRun_mem {α : Type} (cmp : α → α → Int) (l : List α) :
    (∀ a ∈ (v8MakeRun cmp l).1, a ∈ l) ∧
      (∀ a ∈ (v8MakeRun cmp l).2, a ∈ l) := by
  cases l with
  | nil => exact ⟨fun a ha => ha, fun a ha => ha⟩
  | cons x xs =>
    cases xs with
    | nil =>
      refine ⟨fun a ha => ?_, fun a ha => absurd ha (List.not_mem_nil a)⟩
      rw [show (v8MakeRun cmp [x]).1 = [x] from rfl] at ha
      exact ha
    | cons y rest =>
      by_cases hc : cmp y x < 0
      · simp only [v8MakeRun, if_pos hc]
        have hparts := (v8DescRun_parts cmp rest y).1
        constructor
        · intro a ha
          rw [List.mem_reverse] at ha
          rcases List.mem_cons.mp ha with h | h
          · exact h ▸ List.mem_cons_self _ _
          · rcases List.mem_cons.mp h with h' | h'
            · exact h' ▸ List.mem_cons_of_mem x (List.mem_cons_self _ _)
            · refine List.mem_cons_of_mem x (List.mem_cons_of_mem y ?_)
              rw [← hparts]
              exact List.mem_append.mpr (Or.inl h')
        · intro a ha
          refine List.mem_cons_of_mem x (List.mem_cons_of_mem y ?_)
          rw [← hparts]
          exact List.mem_append.mpr (Or.inr ha)
      · simp only [v8MakeRun, if_neg hc]
        have hparts := (v8AscRun_parts cmp rest y).1
        constructor
        · intro a ha
          rcases List.mem_cons.mp ha with h | h
          · exact h ▸ List.mem_cons_self _ _
          · rcases List.mem_cons.mp h with h' | h'
            · exact h' ▸ List.mem_cons_of_mem x (List.mem_cons_self _ _)
            · refine List.mem_cons_of_mem x (List.mem_cons_of_mem y ?_)
              rw [← hparts]
              exact List.mem_append.mpr (Or.inl h')
        · intro a ha
          refine List.mem_cons_of_mem x (List.mem_cons_of_mem y ?_)
          rw [← hparts]
          exact List.mem_append.mpr (Or.inr ha)

theorem v8MakeRun_congr {α : Type} (cmp cmp' : α → α → Int) (L : List α)
    (hL : ∀ a ∈ L, ∀ b ∈ L, cmp a b = cmp' a b) :
    ∀ l : List α, (∀ a ∈ l, a ∈ L) → v8MakeRun cmp l = v8MakeRun cmp' l := by
  intro l hl
  cases l with
  | nil => rfl
  | cons x xs =>
    cases xs with
    | nil => rfl
    | cons y rest =>
      have hx : x ∈ L := hl x (List.mem_cons_self _ _)
      have hy : y ∈ L := hl y (List.mem_cons_of_mem x (List.mem_cons_self _ _))
      have hrest : ∀ a ∈ rest, a ∈ L := fun a ha =>
        hl a (List.mem_cons_of_mem x (List.mem_cons_of_mem y ha))
      have hcc : cmp y x = cmp' y x := hL y hy x hx
      by_cases hc : cmp y x < 0
      · simp only [v8MakeRun, if_pos hc, if_pos (hcc ▸ hc)]
        rw [v8DescRun_congr cmp cmp' L hL rest y hy hrest]
      · simp only [v8MakeRun, if_neg hc, if_neg (hcc ▸ hc)]
        rw [v8AscRun_congr cmp cmp' L hL rest y hy hrest]

theorem v8SortSmall_congr {α : Type} (cmp cmp' : α → α → Int) (l : List α)
    (hL : ∀ a ∈ l, ∀ b ∈ l, cmp a b = cmp' a b) :
    v8SortSmall cmp l = v8SortSmall cmp' l := by
  unfold v8SortSmall
  rw [v8MakeRun_congr cmp cmp' l hL l (fun a ha => ha)]
  have hrun := (v8MakeRun_mem cmp' l).1
  have hrest := (v8MakeRun_mem cmp' l).2
  suffices aux : ∀ (rest acc : List α), (∀ a ∈ rest, a ∈ l) →
      (∀ a ∈ acc, a ∈ l) →
      rest.foldl (v8BinInsert cmp) acc = rest.foldl (v8BinInsert cmp') acc by
    exact aux _ _ hrest hrun
  intro rest
  induction rest with
  | nil => intro acc _ _; rfl
  | cons z zs ih =>
    intro acc hzs hacc
    have hz : z ∈ l := hzs z (List.mem_cons_self _ _)
    rw [List.foldl_cons, List.foldl_cons,
      v8BinInsert_congr cmp cmp' l hL acc hacc z hz]
    refine ih (v8BinInsert cmp' acc z)
      (fun a ha => hzs a (List.mem_cons_of_mem z ha)) ?_
    intro a ha
    rcases mem_v8BinInsert cmp' acc z a ha with h | h
    · exact h ▸ hz
    · exact hacc a h

theorem v8_eq_stable_total {α : Type} (rk : α → Int) (l : List α) :
    v8SortSmall (intKeyCmp rk) l = jsStableSort (intKeyCmp rk) l := by
  cases l with
  | nil => rfl
  | cons x xs =>
    cases xs with
    | nil => rfl
    | cons y r =>
      unfold v8SortSmall
      by_cases hc : intKeyCmp rk y x < 0
      · have hparts := (v8DescRun_parts (intKeyCmp rk) r y).1
        have hchain := (v8DescRun_parts (intKeyCmp rk) r y).2
        simp only [v8MakeRun, if_pos hc]
        have hchainX : List.Chain (fun p q => intKeyCmp rk q p < 0) x
            (y :: (v8DescRun (intKeyCmp rk) y r).1) :=
          List.Chain.cons hc hchain
        have hstable : jsStableSort (intKeyCmp rk) (x :: y :: r) =
            (v8DescRun (intKeyCmp rk) y r).2.foldl
              (fun a z => jsSortInsert (intKeyCmp rk) z a)
              ((x :: y :: (v8DescRun (intKeyCmp rk) y r).1).reverse) := by
          have hsplit : x :: y :: r =
              (x :: y :: (v8DescRun (intKeyCmp rk) y r).1) ++
                (v8DescRun (intKeyCmp rk) y r).2 := by
            rw [List.cons_append, List.cons_append, hparts]
          rw [hsplit]
          unfold jsStableSort
          rw [List.foldl_append]
          congr 1
          rw [List.foldl_cons]
          show (y :: (v8DescRun (intKeyCmp rk) y r).1).foldl
              (fun a z => jsSortInsert (intKeyCmp rk) z a) (x :: []) = _
          rw [jsStableSort_desc_rev (intKeyCmp rk) _ x [] hchainX]
          simp
        rw [hstable]
        have hpw : ((x :: y :: (v8DescRun (intKeyCmp rk) y r).1).reverse).Pairwise
            (fun p q => rk q ≤ rk p) := by
          rw [List.pairwise_reverse]
          have hchain' : List.Chain' (fun p q : α => rk p ≤ rk q)
              (x :: y :: (v8DescRun (intKeyCmp rk) y r).1) := by
            have hbase : List.Chain' (fun p q : α => intKeyCmp rk q p < 0)
                (x :: y :: (v8DescRun (intKeyCmp rk) y r).1) := hchainX
            exact List.Chain'.imp
              (fun a b h => by unfold intKeyCmp at h; omega) hbase
          exact @pairwise_of_chain α (fun p q : α => rk p ≤ rk q)
            (fun a b c hab hbc => le_trans hab hbc) _ hchain'
        exact foldl_binInsert_eq rk _ _ hpw
      · have hparts := (v8AscRun_parts (intKeyCmp rk) r y).1
        have hchain := (v8AscRun_parts (intKeyCmp rk) r y).2
        simp only [v8MakeRun, if_neg hc]
        have hchainX : List.Chain (fun p q => ¬ intKeyCmp rk q p < 0) x
            (y :: (v8AscRun (intKeyCmp rk) y r).1) :=
          List.Chain.cons hc hchain
        have hpwX : (x :: y :: (v8AscRun (intKeyCmp rk) y r).1).Pairwise
            (fun p q => rk q ≤ rk p) := by
          have hchain' : List.Chain' (fun p q : α => rk q ≤ rk p)
              (x :: y :: (v8AscRun (intKeyCmp rk) y r).1) := by
            have hbase : List.Chain' (fun p q : α => ¬ intKeyCmp rk q p < 0)
                (x :: y :: (v8AscRun (intKeyCmp rk) y r).1) := hchainX
            exact List.Chain'.imp
              (fun a b h => by unfold intKeyCmp at h; omega) hbase
          exact @pairwise_of_chain α (fun p q : α => rk q ≤ rk p)
            (fun a b c hab hbc => le_trans hbc hab) _ hchain'
        have hstable : jsStableSort (intKeyCmp rk) (x :: y :: r) =
            (v8AscRun (intKeyCmp rk) y r).2.foldl
              (fun a z => jsSortInsert (intKeyCmp rk) z a)
              (x :: y :: (v8AscRun (intKeyCmp rk) y r).1) := by
          have hsplit : x :: y :: r =
              (x :: y :: (v8AscRun (intKeyCmp rk) y r).1) ++
                (v8AscRun (intKeyCmp rk) y r).2 := by
            rw [List.cons_append, List.cons_append, hparts]
          rw [hsplit]
          unfold jsStableSort
          rw [List.foldl_append]
          congr 1
          exact jsStableSort_sorted_id rk _ [] hpwX
        rw [hstable]
        exact foldl_binInsert_eq rk _ _ hpwX

theorem v8_matches_stable_ranked {α : Type} (key : α → Option Int)
    (l : List α) (hall : ∀ m ∈ l, (key m).isSome = true) :
    v8SortSmall (keyCmp key) l = jsStableSort (keyCmp key) l := by
  have hcc : ∀ a ∈ l, ∀ b ∈ l, keyCmp key a b =
      intKeyCmp (fun m => (key m).getD 0) a b := by
    intro a ha b hb
    have hka := hall a ha
    have hkb := hall b hb
    unfold keyCmp intKeyCmp
    cases ha' : key a with
    | none =>
      rw [ha'] at hka
      simp at hka
    | some v =>
      cases hb' : key b with
      | none =>
        rw [hb'] at hkb
        simp at hkb
      | some w => simp [ha', hb']
  rw [v8SortSmall_congr (keyCmp key) (intKeyCmp (fun m => (key m).getD 0))
      l hcc,
    jsStableSort_congr (keyCmp key) (intKeyCmp (fun m => (key m).getD 0))
      l hcc]
  exact v8_eq_stable_total (fun m => (key m).getD 0) l

theorem filter_jsSortInsert_key_pos {α : Type} (key : α → Option Int) (x : α)
    (r : Int) (hx : key x = some r) :
    ∀ l : List α, (l.filterMap key).Pairwise (fun p q => q ≤ p) →
      (jsSortInsert (keyCmp key) x l).filter
          (fun m => decide (key m = some r)) =
        l.filter (fun m => decide (key m = some r)) ++ [x] := by
  intro l
  induction l with
  | nil =>
    intro _
    simp [jsSortInsert, hx]
  | cons y ys ih =>
    intro hl
    by_cases hc : keyCmp key x y < 0
    · have hy : ∃ s, key y = some s ∧ s < r := by
        unfold keyCmp at hc
        rw [hx] at hc
        cases hy' : key y with
        | none =>
          rw [hy'] at hc
          simp at hc
        | some s =>
          rw [hy'] at hc
          simp only [] at hc
          exact ⟨s, rfl, by omega⟩
      obtain ⟨s, hys, hsr⟩ := hy
      have hfil : (y :: ys).filter (fun m => decide (key m = some r)) = [] := by
        rw [List.filter_eq_nil_iff]
        intro z hz
        simp only [decide_eq_true_eq]
        intro hzr
        rcases List.mem_cons.mp hz with h | h
        · rw [h, hys] at hzr
          injection hzr with h'
          omega
        · have hrmem : r ∈ ys.filterMap key :=
            List.mem_filterMap.mpr ⟨z, h, hzr⟩
          have hpw : ((y :: ys).filterMap key).Pairwise
              (fun p q => q ≤ p) := hl
          simp only [List.filterMap_cons, hys] at hpw
          have := (List.pairwise_cons.mp hpw).1 r hrmem
          omega
      rw [jsSortInsert, if_pos hc, List.filter_cons,
        if_pos (by simp [hx]), hfil]
      rfl
    · rw [jsSortInsert, if_neg hc, List.filter_cons, List.filter_cons]
      have hl' : (ys.filterMap key).Pairwise (fun p q => q ≤ p) := by
        cases hy' : key y with
        | none =>
          simp only [List.filterMap_cons, hy'] at hl
          exact hl
        | some s =>
          simp only [List.filterMap_cons, hy'] at hl
          exact (List.pairwise_cons.mp hl).2
      by_cases hyc : decide (key y = some r) = true
      · rw [if_pos hyc, if_pos hyc, ih hl', List.cons_append]
      · rw [if_neg hyc, if_neg hyc, ih hl']

theorem jsStableSort_filter_key {α : Type} (key : α → Option Int) (r : Int)
    (l : List α) :
    (jsStableSort (keyCmp key) l).filter (fun m => decide (key m = some r)) =
      l.filter (fun m => decide (key m = some r)) := by
  suffices aux : ∀ (xs acc : List α),
      (acc.filterMap key).Pairwise (fun p q => q ≤ p) →
      (xs.foldl (fun a x => jsSortInsert (keyCmp key) x a) acc).filter
          (fun m => decide (key m = some r)) =
        acc.filter (fun m => decide (key m = some r)) ++
          xs.filter (fun m => decide (key m = some r)) by
    simpa using aux l [] (by simp)
  intro xs
  induction xs with
  | nil => intro acc _; simp
  | cons x xs' ih =>
    intro acc hacc
    rw [List.foldl_cons, ih _ (pairwise_filterMap_jsSortInsert key x acc hacc),
      List.filter_cons]
    by_cases hxc : decide (key x = some r) = true
    · rw [filter_jsSortInsert_key_pos key x r (of_decide_eq_true hxc) acc hacc,
        if_pos hxc, List.append_assoc, List.singleton_append]
    · rw [filter_jsSortInsert_neg _ _ x (by simpa using hxc) acc, if_neg hxc]

theorem groupRows_tag (len gi : Nat) (g : List Item) (i : Nat)
    (row : List String) (h : (groupRows len gi g)[i]? = some row) :
    row.getD 2 "" = if i = 0 then "残す" else "終了" := by
  have hlen : i < (groupRows len gi g).length := by
    by_contra hge
    rw [List.getElem?_eq_none (by omega)] at h
    exact Option.noConfusion h
  rw [List.getElem?_eq_getElem hlen] at h
  have hlen2 : i < (sortGroupMembers g).length := by
    simpa [groupRows] using hlen
  have hget : (groupRows len gi g).get ⟨i, hlen⟩ =
      padRow len ("Group " ++ toString (gi + 1))
        (toString g.length ++ "件中" ++ toString (i + 1) ++ "件目")
        (if i = 0 then "残す" else "終了")
        ((sortGroupMembers g).get ⟨i, hlen2⟩).allData := by
    unfold groupRows
    exact List.get_mapIdx _ _ _ _
  have hr : row = padRow len ("Group " ++ toString (gi + 1))
      (toString g.length ++ "件中" ++ toString (i + 1) ++ "件目")
      (if i = 0 then "残す" else "終了")
      ((sortGroupMembers g).get ⟨i, hlen2⟩).allData := by
    rw [← hget, List.get_eq_getElem]
    exact (Option.some.injEq _ _).mp h.symm
  rw [hr]
  rfl

/-! Claim theorems. -/

/-- Claim C7: the batch-size function is pure and total and maps every
data size through the five plateaus `≤1000 → 500`, `≤5000 → 1000`,
`≤20000 → 2000`, `≤40000 → 3000`, `else → 4000`, with the spec's four
boundary values. -/
theorem claim7_batch_size :
    (∀ n : Nat,
      (n ≤ 1000 → calculateOptimalBatchSize n = 500) ∧
      (1000 < n → n ≤ 5000 → calculateOptimalBatchSize n = 1000) ∧
      (5000 < n → n ≤ 20000 → calculateOptimalBatchSize n = 2000) ∧
      (20000 < n → n ≤ 40000 → calculateOptimalBatchSize n = 3000) ∧
      (40000 < n → calculateOptimalBatchSize n = 4000)) ∧
    calculateOptimalBatchSize 1000 = 500 ∧
    calculateOptimalBatchSize 1001 = 1000 ∧
    calculateOptimalBatchSize 40000 = 3000 ∧
    calculateOptimalBatchSize 40001 = 4000 := by
  refine ⟨fun n => ⟨?_, ?_, ?_, ?_, ?_⟩, by decide, by decide, by decide, by decide⟩ <;>
    · intros
      unfold calculateOptimalBatchSize
      split_ifs <;> omega

/-- Witness for claim C7 at the concrete size 3000. -/
theorem claim7_batch_size_witness :
    calculateOptimalBatchSize 3000 = 1000 :=
  (claim7_batch_size.1 3000).2.1 (by decide) (by decide)

/-- Claim C8: export generation selects exactly the rows whose decision
tag is 終了 (End) with a non-empty itemId, projects each to
`["End", itemId, "OtherListingError"]`, and returns a success result with
itemCount 0 and empty data when nothing matches. -/
theorem claim8_export_filter :
    (∀ rows aIdx iIdx,
      (generateExportCsvCore rows aIdx iIdx).data =
        (rows.filter (fun r => decide (getCell r aIdx = "終了" ∧ getCell r iIdx ≠ ""))).map
          (fun r => ["End", getCell r iIdx, "OtherListingError"]) ∧
      (generateExportCsvCore rows aIdx iIdx).itemCount =
        (rows.filter (fun r => decide (getCell r aIdx = "終了" ∧ getCell r iIdx ≠ ""))).length ∧
      (generateExportCsvCore rows aIdx iIdx).success = true) ∧
    (∀ rows aIdx iIdx,
      (∀ r ∈ rows, ¬(getCell r aIdx = "終了" ∧ getCell r iIdx ≠ "")) →
      (generateExportCsvCore rows aIdx iIdx).success = true ∧
      (generateExportCsvCore rows aIdx iIdx).itemCount = 0 ∧
      (generateExportCsvCore rows aIdx iIdx).data = []) := by
  have hmain : ∀ (rows : List (List String)) (aIdx iIdx : Nat),
      (generateExportCsvCore rows aIdx iIdx).data =
        (rows.filter (fun r => decide (getCell r aIdx = "終了" ∧ getCell r iIdx ≠ ""))).map
          (fun r => ["End", getCell r iIdx, "OtherListingError"]) ∧
      (generateExportCsvCore rows aIdx iIdx).itemCount =
        (rows.filter (fun r => decide (getCell r aIdx = "終了" ∧ getCell r iIdx ≠ ""))).length ∧
      (generateExportCsvCore rows aIdx iIdx).success = true := by
    intro rows aIdx iIdx
    unfold generateExportCsvCore
    rw [exportSelect_eq_filter]
    by_cases h : (rows.filter
        (fun r => decide (getCell r aIdx = "終了" ∧ getCell r iIdx ≠ ""))).map
          (fun r => ["End", getCell r iIdx, "OtherListingError"]) = []
    · rw [if_pos h]
      have hf := List.map_eq_nil_iff.mp h
      exact ⟨h.symm, by rw [hf]; rfl, rfl⟩
    · rw [if_neg h]
      exact ⟨rfl, by rw [List.length_map], rfl⟩
  refine ⟨hmain, fun rows aIdx iIdx hnone => ?_⟩
  obtain ⟨h1, h2, h3⟩ := hmain rows aIdx iIdx
  have hfil : rows.filter
      (fun r => decide (getCell r aIdx = "終了" ∧ getCell r iIdx ≠ "")) = [] := by
    rw [List.filter_eq_nil_iff]
    intro r hr
    simpa using hnone r hr
  rw [hfil] at h1 h2
  exact ⟨h3, by simpa using h2, by simpa using h1⟩

/-- Witness for claim C8 on a table whose only row is tagged 残す. -/
theorem claim8_export_filter_witness :
    (generateExportCsvCore [["x1", "残す"]] 1 0).itemCount = 0 :=
  (claim8_export_filter.2 [["x1", "残す"]] 1 0 (by decide)).2.1

/-- Claim C9 is a code bug: `clearState` deletes the persisted state from
the in-memory tier and the cache tier only; the durable sheet tier is
never cleaned, so after a run completes (save of the completed state
followed by `clearState`), `getState` still retrieves that state from the
sheet tier for the same process id. -/
theorem claim9_completion_state_retrievable :
    ∀ pid st σ,
      (getState pid (completeRun pid st σ)).2 =
        some { st with phase := "completed", completed := true } := by
  intro pid st σ
  unfold completeRun clearState saveState getState
  simp only [tierGet_del_self, tierGet_put_self]

/-- Claim C10 counterexample: the whitespace-only line has no double
quote, yet `parseLine` returns the empty array while comma-splitting with
trimming returns one empty cell. -/
theorem claim10_parseLine_counterexample :
    parseLine (" ") = [] ∧ splitCommaTrim (" ") = [""] ∧
      ¬ parseLine (" ") = splitCommaTrim (" ") ∧
      ('"' ∉ (" " : String).data) := by decide

/-- Claim C10 (amended): both per-line parsers always return at least one
field (they are total and never throw); on every quote-free line
`parseCSVLine` equals the comma-split with per-cell trimming; `parseLine`
equals it on every quote-free line that is not empty or whitespace-only,
and returns the empty array on empty or whitespace-only lines. -/
theorem claim10_parsers_amended :
    (∀ s : String, '"' ∉ s.data → parseCSVLine s = splitCommaTrim s) ∧
    (∀ s : String, '"' ∉ s.data → jsTrim s ≠ "" → parseLine s = splitCommaTrim s) ∧
    (∀ s : String, jsTrim s = "" → parseLine s = []) ∧
    (∀ s : String, 1 ≤ (parseCSVLine s).length ∧
      1 ≤ ((parseLineGo s.data false []).map String.mk).length) := by
  refine ⟨?_, ?_, ?_, ?_⟩
  · intro s h
    unfold parseCSVLine splitCommaTrim
    rw [parseCSVGo_noQuote s.data [] h]
    cases hsp : splitComma s.data with
    | nil => exact absurd hsp (splitComma_ne_nil _)
    | cons g gs => simp
  · intro s h hne
    unfold parseLine
    rw [if_neg hne]
    have hcont : s.data.contains '"' = false := by
      rw [Bool.eq_false_iff]
      intro hc
      exact h (List.elem_iff.mp hc)
    rw [hcont]
    rfl
  · intro s h
    unfold parseLine
    rw [if_pos h]
  · intro s
    constructor
    · unfold parseCSVLine
      rw [List.length_map]
      exact parseCSVGo_length_pos _ _ _
    · rw [List.length_map]
      exact parseLineGo_length_pos _ _ _

/-- Witness for claim C10 on the quote-free line `a, b ,c`. -/
theorem claim10_parsers_witness :
    parseCSVLine ("a, b ,c") = splitCommaTrim ("a, b ,c") ∧
      parseLine ("a, b ,c") = splitCommaTrim ("a, b ,c") :=
  ⟨claim10_parsers_amended.1 ("a, b ,c") (by decide),
   claim10_parsers_amended.2.1 ("a, b ,c") (by decide) (by decide)⟩

/-- Claim C6 counterexample: the title `the` is non-empty, but it is a
stop word, so it advanced-normalizes to the empty string and the
similarity of the pair (the, the) is 0, not 1 as the claim states for
every non-empty pair. -/
theorem claim6_similarity_counterexample :
    calculateSimilarity ("the") ("the") = 0 ∧ ("the" : String) ≠ "" ∧
      (0 : ℚ) ≠ 1 := by
  refine ⟨by decide, by decide, by norm_num⟩

/-- Claim C6 (amended): the similarity of any two titles lies in
`[0, 1]`; a title equals itself with similarity 1 provided it does not
advanced-normalize to the empty string; and whenever either input
advanced-normalizes to empty the function returns 0 (which is why the
self-similarity clause needs that proviso). -/
theorem claim6_similarity_bounds :
    ∀ a b : String,
      0 ≤ calculateSimilarity a b ∧ calculateSimilarity a b ≤ 1 ∧
      (normalizeTitleAdv a ≠ "" → calculateSimilarity a a = 1) ∧
      (normalizeTitleAdv a = "" ∨ normalizeTitleAdv b = "" →
        calculateSimilarity a b = 0) := by
  intro a b
  refine ⟨?_, ?_, ?_, ?_⟩
  · unfold calculateSimilarity
    by_cases h : normalizeTitleAdv a = "" ∨ normalizeTitleAdv b = ""
    · rw [if_pos h]
    · rw [if_neg h]
      dsimp only
      positivity
  · unfold calculateSimilarity
    by_cases h : normalizeTitleAdv a = "" ∨ normalizeTitleAdv b = ""
    · rw [if_pos h]
      norm_num
    · rw [if_neg h]
      dsimp only
      set w1 := (splitSpace (normalizeTitleAdv a).data).map String.mk with hw1
      set w2 := (splitSpace (normalizeTitleAdv b).data).map String.mk with hw2
      have hsub : (w1.toFinset ∩ w2.toFinset).card ≤ (w1.toFinset ∪ w2.toFinset).card :=
        Finset.card_le_card Finset.inter_subset_union
      rcases Nat.eq_zero_or_pos (w1.toFinset ∪ w2.toFinset).card with h0 | hpos
      · rw [h0]
        norm_num
      · rw [div_le_one (by exact_mod_cast hpos)]
        exact_mod_cast hsub
  · intro h
    unfold calculateSimilarity
    rw [if_neg (by simpa using h)]
    dsimp only
    set w1 := (splitSpace (normalizeTitleAdv a).data).map String.mk with hw1
    have hne : w1 ≠ [] := by
      rw [hw1]
      intro hmap
      rw [List.map_eq_nil_iff] at hmap
      exact splitSpace_ne_nil _ hmap
    have hcard : 0 < w1.toFinset.card := by
      rcases w1 with _ | ⟨x, xs⟩
      · exact absurd rfl hne
      · exact Finset.card_pos.mpr ⟨x, by simp⟩
    rw [Finset.inter_self, Finset.union_self]
    exact div_self (by exact_mod_cast hcard.ne')
  · intro h
    unfold calculateSimilarity
    rw [if_pos h]

/-- Witness for claim C6 at a title that advanced-normalizes to itself. -/
theorem claim6_similarity_bounds_witness :
    calculateSimilarity ("abcdef") ("abcdef") = 1 :=
  (claim6_similarity_bounds ("abcdef") ("abcdef")).2.2.1 (by decide)

/-- Claim C4: if neither the title nor the itemId column resolves from
the header, detection returns the required-columns failure object with
`success = false`; if both resolve and no duplicate group exists, it
returns the success object with duplicate-group count 0; the caller can
distinguish the two by the success flag. -/
theorem claim4_detect_outcomes :
    (∀ headers data, titleIdxOf headers = none → itemIdxOf headers = none →
      detectDuplicatesStandardCore headers data =
        DetectResult.failure "必須カラム(タイトル、ID)が見つかりません。" ∧
      (detectDuplicatesStandardCore headers data).successFlag = false) ∧
    (∀ headers data tI iI,
      titleIdxOf headers = some tI → itemIdxOf headers = some iI →
      dupGroupsOf tI iI (dateIdxOf headers) data = [] →
      detectDuplicatesStandardCore headers data = DetectResult.ok [] ∧
      (detectDuplicatesStandardCore headers data).successFlag = true ∧
      (detectDuplicatesStandardCore headers data).dupGroupCount = 0) := by
  constructor
  · intro headers data h1 h2
    unfold detectDuplicatesStandardCore
    rw [h1, h2]
    exact ⟨rfl, rfl⟩
  · intro headers data tI iI h1 h2 h3
    unfold detectDuplicatesStandardCore
    rw [h1, h2]
    refine ⟨?_, ?_, ?_⟩ <;> simp [h3, DetectResult.successFlag, DetectResult.dupGroupCount]

/-- Witness for claim C4: an empty header fails; a resolvable header with
two distinct titles succeeds with zero duplicates. -/
theorem claim4_detect_outcomes_witness :
    (detectDuplicatesStandardCore [] [["a"]]).successFlag = false ∧
    (detectDuplicatesStandardCore ["Item ID", "Title"]
        [["1", "AAA"], ["2", "BBB"]]).successFlag = true ∧
    (detectDuplicatesStandardCore ["Item ID", "Title"]
        [["1", "AAA"], ["2", "BBB"]]).dupGroupCount = 0 :=
  ⟨(claim4_detect_outcomes.1 [] [["a"]] (by decide) (by decide)).2,
   (claim4_detect_outcomes.2 ["Item ID", "Title"] [["1", "AAA"], ["2", "BBB"]]
      1 0 (by decide) (by decide) (by decide)).2.1,
   (claim4_detect_outcomes.2 ["Item ID", "Title"] [["1", "AAA"], ["2", "BBB"]]
      1 0 (by decide) (by decide) (by decide)).2.2⟩

/-- C1 counterexample: the group comparator returns 0 against a member
with an unparseable date, which breaks transitivity of its equivalence
(March ties invalid, invalid ties May, yet March and May compare
strictly), so it is not a consistent comparison function and ES leaves
the sort order implementation-defined. On the group March, invalid,
January, May, the algorithm the engine actually runs (run detection
plus binary insertion, V8's path for arrays this short) returns
March, invalid, May, January: the parseable dates are not in descending
order, index 0 - the row that gets the Keep tag - is the March member
rather than the most recent May one, and the idealised stable sort
disagrees with the engine. -/
theorem claim1_sort_counterexample :
    (memberCmp specMar specInv = 0 ∧ memberCmp specInv specMay = 0 ∧
      memberCmp specMar specMay ≠ 0) ∧
    v8SortGroupMembers [specMar, specInv, specJan, specMay] =
      [specMar, specInv, specMay, specJan] ∧
    ¬ ((v8SortGroupMembers [specMar, specInv, specJan, specMay]).filterMap
        rankOf).Pairwise (fun p q => q ≤ p) ∧
    v8SortGroupMembers [specMar, specInv, specJan, specMay] ≠
      sortGroupMembers [specMar, specInv, specJan, specMay] := by
  decide

/-- Claim C1, amended: on duplicate groups whose members all carry valid
ISO YYYY-MM-DD start dates (the only inputs on which the comparator is
a consistent comparison function - a missing or unparseable date makes
it return 0 against everything and the order becomes
implementation-defined, see the counterexample) and that are short
enough for the modelled engine path (fewer than 64 members), the sort
the engine executes coincides with the idealised stable sort; the sorted
dates are non-increasing, members with the same date keep their original
relative order, sorting permutes the group, the member at index 0 is a
most recent one, and the emitted rows tag index 0 with 残す and every
other index with 終了. -/
theorem claim1_group_sort_and_tags (g : List Item)
    (hall : ∀ m ∈ g, (rankOf m).isSome = true)
    (hlen : g.length < 64) :
    v8SortGroupMembers g = sortGroupMembers g ∧
    ((sortGroupMembers g).filterMap rankOf).Pairwise (fun p q => q ≤ p) ∧
    (∀ r : Int,
      (sortGroupMembers g).filter (fun m => decide (rankOf m = some r)) =
        g.filter (fun m => decide (rankOf m = some r))) ∧
    (sortGroupMembers g).Perm g ∧
    (∀ h0, (sortGroupMembers g).head? = some h0 →
      ∀ m ∈ g, memberCmp h0 m ≤ 0) ∧
    (∀ (len gi i : Nat) (row : List String),
      (groupRows len gi g)[i]? = some row →
      row.getD 2 "" = if i = 0 then "残す" else "終了") := by
  have hpairwise : ((sortGroupMembers g).filterMap rankOf).Pairwise
      (fun p q => q ≤ p) := by
    unfold sortGroupMembers
    rw [memberCmp_eq_keyCmp]
    exact jsStableSort_pairwise_filterMap rankOf g
  have hperm : (sortGroupMembers g).Perm g := jsStableSort_perm memberCmp g
  refine ⟨?_, hpairwise, ?_, hperm, ?_, fun len gi i row h =>
    groupRows_tag len gi g i row h⟩
  · unfold v8SortGroupMembers sortGroupMembers
    rw [memberCmp_eq_keyCmp]
    exact v8_matches_stable_ranked rankOf g hall
  · intro r
    unfold sortGroupMembers
    rw [memberCmp_eq_keyCmp]
    exact jsStableSort_filter_key rankOf r g
  · intro h0 hh m hm
    cases hsg : sortGroupMembers g with
    | nil =>
      rw [hsg] at hh
      exact absurd hh (by simp)
    | cons a t =>
      rw [hsg] at hh
      have ha : a = h0 := by
        injection hh
      subst ha
      have hr0 : (rankOf a).isSome = true := by
        refine hall a (hperm.mem_iff.mp ?_)
        rw [hsg]
        exact List.mem_cons_self _ _
      have hrm : (rankOf m).isSome = true := hall m hm
      obtain ⟨r0, hr0'⟩ := Option.isSome_iff_exists.mp hr0
      obtain ⟨rm, hrm'⟩ := Option.isSome_iff_exists.mp hrm
      have hm' : m ∈ a :: t := by
        rw [← hsg]
        exact hperm.mem_iff.mpr hm
      have hle : rm ≤ r0 := by
        rcases List.mem_cons.mp hm' with he | he
        · rw [he, hr0'] at hrm'
          injection hrm' with h'
          omega
        · have hmem : rm ∈ t.filterMap rankOf :=
            List.mem_filterMap.mpr ⟨m, he, hrm'⟩
          rw [hsg] at hpairwise
          simp only [List.filterMap_cons, hr0'] at hpairwise
          exact (List.pairwise_cons.mp hpairwise).1 rm hmem
      unfold memberCmp
      rw [hr0', hrm']
      simp only []
      omega

/-- C1 witness: on a four-member all-ISO group with a January tie the
engine sort and the stable model agree, the tied January members keep
their insertion order, and the emitted rows put 残す at index 0 and
終了 at the later indices. -/
theorem claim1_group_sort_and_tags_witness :
    v8SortGroupMembers [specJan, specMar, specJanB, specMay] =
      sortGroupMembers [specJan, specMar, specJanB, specMay] ∧
    (sortGroupMembers [specJan, specMar, specJanB, specMay]).filter
        (fun m => decide (rankOf m = some 20240101)) = [specJan, specJanB] ∧
    ((groupRows 6 0 [specJan, specMar, specJanB, specMay]).getD 0 []).getD 2 ""
      = "残す" ∧
    ((groupRows 6 0 [specJan, specMar, specJanB, specMay]).getD 2 []).getD 2 ""
      = "終了" := by
  have h := claim1_group_sort_and_tags [specJan, specMar, specJanB, specMay]
    (by decide) (by decide)
  refine ⟨h.1, ?_, ?_, ?_⟩
  · rw [h.2.2.1 20240101]
    decide
  · have h0 : (groupRows 6 0 [specJan, specMar, specJanB, specMay])[0]? =
        some ((groupRows 6 0 [specJan, specMar, specJanB, specMay]).getD 0 []) := by
      decide
    simpa using h.2.2.2.2.2 6 0 0 _ h0
  · have h2 : (groupRows 6 0 [specJan, specMar, specJanB, specMay])[2]? =
        some ((groupRows 6 0 [specJan, specMar, specJanB, specMay]).getD 2 []) := by
      decide
    simpa using h.2.2.2.2.2 6 0 2 _ h2

/-- C3: grouping includes a data row exactly when its basic-normalized
title and whitespace-trimmed itemId are non-empty, and skipped rows are
silent: the members stored under each normalized-title key are exactly
the surviving rows in row order, and group keys are created in
first-appearance order. The duplicate-group list is a permutation of the
enumerated groups with more than one member and is ordered by descending
member count. The tie-order sentence of the claim holds only when no
normalized title is a JS array-index string (object enumeration reorders
such keys numerically, see the counterexample): under that proviso the
stable sort keeps equal-size groups in insertion order. -/
theorem claim3_grouping (tIdx iIdx : Nat) (dIdx : Option Nat)
    (data : List (List String)) :
    (∀ k, membersAt (groupByTitle tIdx iIdx dIdx data) k =
      itemsFor tIdx iIdx dIdx data k) ∧
    (groupByTitle tIdx iIdx dIdx data).map (fun e => e.1) =
      keysAfter [] ((itemEntries tIdx iIdx dIdx data).map (fun e => e.1)) ∧
    (dupGroupsOf tIdx iIdx dIdx data).Perm
      ((jsoEnumOrder (groupByTitle tIdx iIdx dIdx data)).filter
        (fun e => decide (1 < e.2.length))) ∧
    (dupGroupsOf tIdx iIdx dIdx data).Pairwise
      (fun a b => b.2.length ≤ a.2.length) ∧
    ((∀ e ∈ groupByTitle tIdx iIdx dIdx data, isArrayIndexStr e.1 = false) →
      ∀ n, (dupGroupsOf tIdx iIdx dIdx data).filter
          (fun e => decide (e.2.length = n)) =
        ((groupByTitle tIdx iIdx dIdx data).filter
          (fun e => decide (1 < e.2.length))).filter
          (fun e => decide (e.2.length = n))) := by
  refine ⟨membersAt_groupByTitle tIdx iIdx dIdx data,
    groupByTitle_keys tIdx iIdx dIdx data, ?_, ?_, ?_⟩
  · unfold dupGroupsOf
    exact jsStableSort_perm _ _
  · unfold dupGroupsOf
    rw [groupLenCmp_eq_keyCmp]
    exact (jsStableSort_total_props
      (fun e : String × List Item => e.2.length) _).1
  · intro h n
    unfold dupGroupsOf
    rw [groupLenCmp_eq_keyCmp, jsoEnumOrder_eq_self _ h]
    exact (jsStableSort_total_props
      (fun e : String × List Item => e.2.length) _).2 n

/-- C3 counterexample: four rows with normalized titles 999 and 111 give
two tied groups of two members, created with 999 first, yet the
duplicate-group list comes out with 111 first - JS object enumeration
returns array-index keys in ascending numeric order before insertion
order applies, so equal-size groups are not kept in insertion order. -/
theorem claim3_tie_order_counterexample :
    ((groupByTitle 1 0 (some 2) c3rows).map (fun e => e.1) =
        ["999", "111"] ∧
      ∀ e ∈ groupByTitle 1 0 (some 2) c3rows, e.2.length = 2) ∧
    (dupGroupsOf 1 0 (some 2) c3rows).map (fun e => e.1) =
      ["111", "999"] := by
  decide

/-- C3 witness: the grouping theorem applied to seven rows with
alphabetic titles: membership of the pear group and, since no key is an
array-index string, the tied two-member groups keep insertion order. -/
theorem claim3_grouping_witness :
    membersAt (groupByTitle 1 0 (some 2) c3wrows) ("pear") =
      itemsFor 1 0 (some 2) c3wrows ("pear") ∧
    (dupGroupsOf 1 0 (some 2) c3wrows).filter
        (fun e => decide (e.2.length = 2)) =
      ((groupByTitle 1 0 (some 2) c3wrows).filter
        (fun e => decide (1 < e.2.length))).filter
        (fun e => decide (e.2.length = 2)) :=
  ⟨(claim3_grouping 1 0 (some 2) c3wrows).1 ("pear"),
   (claim3_grouping 1 0 (some 2) c3wrows).2.2.2.2 (by decide) 2⟩

/-- C2 counterexample: two rows whose titles differ only in letter case
form one duplicate group for the standard detector, which groups on the
lower-cased normalized title, but the chunked detect phase counts zero
duplicates because it compares raw trimmed titles - so the chunked run
does not match the single-pass count even for data inside one chunk. -/
theorem claim2_chunked_counterexample :
    chunkedDetectCount (findTitleColumn c2headers) 800 c2rows = 0 ∧
    (detectDuplicatesStandardCore c2headers c2rows).dupGroupCount = 1 := by
  decide

/-- C2 amended: when the data fits in one chunk the chunked detect phase
is a single findDuplicatesInChunk pass, and if both column resolvers pick
the same title column and every row's title is already basic-normalized,
longer than 10 characters, with a non-empty trimmed itemId, then the
chunked count equals the standard detector's duplicate-group count: both
count the distinct titles occurring more than once. -/
theorem claim2_chunked_vs_standard (headers : List String)
    (data : List (List String)) (tIdx iIdx : Nat)
    (hft : findTitleColumn headers = tIdx)
    (ht : titleIdxOf headers = some tIdx)
    (hi : itemIdxOf headers = some iIdx)
    (hlen : data.length ≤ 800)
    (hrows : ∀ row ∈ data,
      jsTrim (getCell row tIdx) = normalizeTitleBasic (getCell row tIdx) ∧
      10 < (jsTrim (getCell row tIdx)).length ∧
      jsTrim (getCell row iIdx) ≠ "") :
    chunkedDetectCount (findTitleColumn headers) 800 data =
      (detectDuplicatesStandardCore headers data).dupGroupCount := by
  rw [hft, chunkedDetectCount_single tIdx 800 data hlen,
    findDuplicatesInChunk_eq]
  have hcore : detectDuplicatesStandardCore headers data =
      DetectResult.ok (dupGroupsOf tIdx iIdx (dateIdxOf headers) data) := by
    unfold detectDuplicatesStandardCore
    rw [ht, hi]
  rw [hcore]
  show _ = (dupGroupsOf tIdx iIdx (dateIdxOf headers) data).length
  rw [dupGroupsOf_length]
  have hkeys : chunkKeys tIdx data =
      (itemEntries tIdx iIdx (dateIdxOf headers) data).map (fun e => e.1) := by
    unfold chunkKeys itemEntries
    rw [List.map_filterMap]
    refine filterMap_congr_mem _ _ data ?_
    intro row hrow
    obtain ⟨h1, h2, h3⟩ := hrows row hrow
    have htne : normalizeTitleBasic (getCell row tIdx) ≠ "" := by
      rw [← h1]
      intro hh
      rw [hh] at h2
      simp at h2
    rw [if_pos h2]
    unfold mkItemRow
    dsimp only
    rw [if_pos ⟨htne, h3⟩, h1]
    rfl
  rw [hkeys]

/-- C2 witness: on three rows with already-normalized 12-character
titles, two of them equal, the chunked count and the standard detector's
duplicate-group count agree. -/
theorem claim2_chunked_vs_standard_witness :
    chunkedDetectCount (findTitleColumn c2headers) 800 c2wrows =
      (detectDuplicatesStandardCore c2headers c2wrows).dupGroupCount :=
  claim2_chunked_vs_standard c2headers c2wrows 1 0 (by decide) (by decide)
    (by decide) (by decide) (by decide)

/-- C5 counterexample: basic normalization is not idempotent. On the
input a-space-bang-space-b the first pass strips the bang after the
whitespace collapse, leaving two adjacent spaces, and the second pass
collapses them, so the results differ. -/
theorem claim5_idem_counterexample :
    normalizeTitle ("a ! b") false = "a  b" ∧
    normalizeTitle (normalizeTitle ("a ! b") false) false = "a b" := by
  decide

set_option maxHeartbeats 2000000 in
/-- C5 amended: basic-mode normalization is idempotent on every string
whose characters all belong to the kept class (ASCII word characters,
whitespace, and the symbols kept by the final strip) and include no
opening parenthesis. On such inputs nothing is deleted after the
whitespace passes run, so the first output is a fixed point: it is
trimmed, has single spaces only, no whitespace touching a symbol, and
no character that lower-casing or the final strip would change. The
general statement is false (see the counterexample): a stripped foreign
character can leave two adjacent spaces behind, and a parenthesis pair
emptied by the symbol pass can be deleted only by a second pass. -/
theorem claim5_basic_idempotent (s : String)
    (h : ∀ c ∈ s.data, isKeptChar c = true ∧ c ≠ '(') :
    normalizeTitle (normalizeTitle s false) false = normalizeTitle s false := by
  show normalizeTitleBasic (normalizeTitleBasic s) = normalizeTitleBasic s
  by_cases hs : s = ""
  · subst hs
    decide
  · unfold normalizeTitleBasic
    rw [if_neg hs]
    have hkept₀ : ∀ c ∈ s.data.map jsToLower, isKeptChar c = true := by
      intro c hc
      obtain ⟨a, ha, heq⟩ := List.mem_map.mp hc
      rw [← heq]
      exact jsToLower_kept a (h a ha).1
    have hparen₀ : '(' ∉ s.data.map jsToLower := by
      intro hc
      obtain ⟨a, ha, heq⟩ := List.mem_map.mp hc
      exact jsToLower_ne_paren a (h a ha).2 heq
    have hbrak₀ : '[' ∉ s.data.map jsToLower := by
      intro hc
      obtain ⟨a, ha, heq⟩ := List.mem_map.mp hc
      exact jsToLower_ne_bracket a (kept_not_lbracket a (h a ha).1) heq
    obtain ⟨hshape, hedge, hws, hparen, hbrak, hkept, hmem⟩ :=
      basicPipeline_props (s.data.map jsToLower) hkept₀ hparen₀ hbrak₀
    by_cases hr : String.mk (basicPipeline (s.data.map jsToLower)) = ""
    · rw [if_pos hr, hr]
    · rw [if_neg hr]
      have hlow : (basicPipeline (s.data.map jsToLower)).map jsToLower =
          basicPipeline (s.data.map jsToLower) := by
        have hfix : ∀ c ∈ basicPipeline (s.data.map jsToLower),
            jsToLower c = c := by
          intro c hc
          rcases hmem c hc with h' | h'
          · rw [h']
            decide
          · obtain ⟨a, ha, heq⟩ := List.mem_map.mp h'
            rw [← heq, jsToLower_idem]
        exact (List.map_congr_left hfix).trans (List.map_id _)
      rw [show ((String.mk (basicPipeline (s.data.map jsToLower))).data) =
          basicPipeline (s.data.map jsToLower) from rfl]
      rw [hlow]
      exact congrArg String.mk
        (basicPipeline_id (basicPipeline (s.data.map jsToLower))
          hshape hedge hws hparen hbrak hkept)

/-- C5 witness: the theorem applied to a plain two-word title whose
characters are all kept and contain no parenthesis. -/
theorem claim5_basic_idempotent_witness :
    normalizeTitle (normalizeTitle ("red widget") false) false =
      normalizeTitle ("red widget") false :=
  claim5_basic_idempotent ("red widget") (by decide)

end EbayTool
